/-
Verification of the link-detection and graph-analysis engine of the
temporal-kb repository (kb/services/link_service.py and the EntryLink
data model of kb/core/models.py).

The Python code is shallowly embedded: SQLAlchemy rows become fields of a
`LinkStore` value that is threaded explicitly; Python floats become exact
rationals; Python strings become `List Char`.  Every definition mirrors the
corresponding source function; the theorems at the end of this file settle
the specification claims against these definitions.
-/
import Mathlib

set_option autoImplicit false

namespace TemporalKB

/-! ## Text utilities

`str.lower()` and the substring / context-window logic of
`detect_links_in_entry` (link_service.py lines 133-144). -/

/-- Lower-case a character sequence, as Python `str.lower` does. -/
def lowerChars (s : List Char) : List Char := s.map Char.toLower

/-- `beginsWith text pat` holds when `pat` occurs at the head of `text`. -/
def beginsWith : List Char → List Char → Bool
  | _, [] => true
  | [], _ :: _ => false
  | a :: as, b :: bs => a == b && beginsWith as bs

/-- Index of the first occurrence of `pat` in `text`, if any
(the semantics of Python `text.find(pat)` / leftmost regex match). -/
def firstOcc (pat : List Char) : List Char → Option Nat
  | [] => if beginsWith [] pat then some 0 else none
  | c :: rest =>
    if beginsWith (c :: rest) pat then some 0
    else (firstOcc pat rest).map (· + 1)

/-- `pat in text` of Python: `pat` occurs somewhere in `text`. -/
def containsSub (text pat : List Char) : Bool := (firstOcc pat text).isSome

/-- The context window the detector stores with a title-mention candidate:
up to 50 characters of surrounding text on each side of an occurrence of
`pat` in `text` (the `.{0,50}pat.{0,50}` regex search of
link_service.py lines 139-144).  `none` when `pat` does not occur. -/
def mentionContext (text pat : List Char) : Option (List Char) :=
  (firstOcc pat text).map fun i =>
    (text.drop (i - 50)).take ((i - (i - 50)) + pat.length + 50)

/-- Keep the first occurrence of every element, dropping later duplicates —
the key order of a Python dict / insertion order of a set built by
repeated insertion. -/
def dedupFirst (l : List String) : List String :=
  l.foldl (fun acc x => if x ∈ acc then acc else acc ++ [x]) []

/-! ## Data model

`LinkType` (kb/core/schemas.py lines 20-25), `Entry` (the fields of
kb/core/models.py the link service reads), `EntryLink`
(kb/core/models.py lines 98-115) and the store of all links. -/

/-- The closed enumeration of link types (schemas.py lines 20-25). -/
inductive LinkType where
  | references
  | builds_on
  | contradicts
  | applies_to
  | inspired_by
deriving DecidableEq

/-- The fields of an entry that link detection reads: identity, title,
raw content, tag names and project names (models.py; tag and project
names are unique per entry in the schema). -/
structure Entry where
  id : String
  title : List Char
  content : List Char
  tags : List String
  projects : List String
deriving DecidableEq

/-- A transient detection candidate: one element of the dict list built by
`detect_links_in_entry` (link_service.py lines 146-180). -/
structure Candidate where
  to_entry_id : String
  to_entry_title : List Char
  link_type : LinkType
  strength : ℚ
  context : Option (List Char)
  reason : String
deriving DecidableEq

/-- A stored link row (models.py lines 98-115).  `id` and `created_at`
are modelled by the value of a monotone counter at creation time. -/
structure EntryLink where
  id : Nat
  from_entry_id : String
  to_entry_id : String
  link_type : LinkType
  strength : ℚ
  context : Option (List Char)
  created_at : Nat
  is_automatic : Bool
deriving DecidableEq

/-- The `entry_links` table plus the id/timestamp counter.  `links` is in
row-insertion order, matching the order an unordered SQLAlchemy query
returns rows of the SQLite table. -/
structure LinkStore where
  links : List EntryLink
  nextId : Nat
deriving DecidableEq

/-- The empty store. -/
def store0 : LinkStore := ⟨[], 0⟩

/-! ## Link repository: create_link (link_service.py lines 25-85) -/

/-- The `(from, to, type)` uniqueness lookup of `create_link`
(link_service.py lines 50-56): the first stored row with the given key. -/
def findExisting (s : LinkStore) (f t : String) (ty : LinkType) :
    Option EntryLink :=
  s.links.find? fun l =>
    decide (l.from_entry_id = f ∧ l.to_entry_id = t ∧ l.link_type = ty)

/-- `LinkService.create_link` (link_service.py lines 25-85).  If a link
with the same `(from, to, type)` key exists, its strength and context are
overwritten in place when the new strength is strictly greater, and the
existing row is returned; otherwise a fresh row is appended.  The Python
function returns `None` only when the database raises; the pure embedding
never fails, so the returned option is always `some`. -/
def create_link (s : LinkStore) (from_entry_id to_entry_id : String)
    (link_type : LinkType) (context : Option (List Char)) (strength : ℚ)
    (is_automatic : Bool) : LinkStore × Option EntryLink :=
  match findExisting s from_entry_id to_entry_id link_type with
  | some existing =>
    if existing.strength < strength then
      let updated := { existing with strength := strength, context := context }
      ({ s with
          links := s.links.map fun l => if l.id = existing.id then updated else l },
       some updated)
    else
      (s, some existing)
  | none =>
    let link : EntryLink :=
      { id := s.nextId, from_entry_id := from_entry_id,
        to_entry_id := to_entry_id, link_type := link_type,
        strength := strength, context := context,
        created_at := s.nextId, is_automatic := is_automatic }
    ({ links := s.links ++ [link], nextId := s.nextId + 1 }, some link)

/-! ## Link detector (link_service.py lines 115-192) -/

/-- The deduplicated shared tag names of a pair of entries
(`set(...) & set(...)` of link_service.py line 157). -/
def sharedTagsOf (subject other : Entry) : List String :=
  dedupFirst (subject.tags.filter fun t => decide (t ∈ other.tags))

/-- The deduplicated shared project names of a pair of entries
(link_service.py line 171). -/
def sharedProjectsOf (subject other : Entry) : List String :=
  dedupFirst (subject.projects.filter fun p => decide (p ∈ other.projects))

/-- The lower-cased `f"{entry.title} {entry.content}"` of
link_service.py line 133. -/
def subjectText (subject : Entry) : List Char :=
  lowerChars (subject.title ++ ' ' :: subject.content)

/-- The title-mention candidate emitted when `other`'s lower-cased title
occurs in the subject text (link_service.py lines 146-153). -/
def titleCandidate (subject other : Entry) : Candidate :=
  { to_entry_id := other.id, to_entry_title := other.title,
    link_type := LinkType.references, strength := 4/5,
    context := mentionContext (subjectText subject) (lowerChars other.title),
    reason := "title_mention" }

/-- The shared-tag candidate emitted when the pair shares at least two
tags (link_service.py lines 156-167): strength
`min 0.7 (0.2 * |shared|)`. -/
def tagCandidate (subject other : Entry) : Candidate :=
  { to_entry_id := other.id, to_entry_title := other.title,
    link_type := LinkType.references,
    strength := min (7/10) (((sharedTagsOf subject other).length : ℚ) * (1/5)),
    context := some (("Shared tags: " ++
      String.intercalate ", " (sharedTagsOf subject other)).data),
    reason := "shared_tags" }

/-- The shared-project candidate emitted when the pair shares a project
(link_service.py lines 169-180): strength 0.6. -/
def projCandidate (subject other : Entry) : Candidate :=
  { to_entry_id := other.id, to_entry_title := other.title,
    link_type := LinkType.applies_to, strength := 3/5,
    context := some (("Shared project: " ++
      String.intercalate ", " (sharedProjectsOf subject other)).data),
    reason := "shared_project" }

/-- The raw candidates `detect_links_in_entry` emits for one
`(subject, other)` pair (link_service.py lines 135-180): a title-mention
candidate of strength 0.8, a shared-tag candidate when at least two tags
are shared, and a shared-project candidate, in that order. -/
def candidatesFor (subject other : Entry) : List Candidate :=
  (if containsSub (subjectText subject) (lowerChars other.title) then
    [titleCandidate subject other]
  else []) ++
  (if subject.tags ≠ [] ∧ other.tags ≠ [] ∧
      2 ≤ (sharedTagsOf subject other).length then
    [tagCandidate subject other]
  else []) ++
  (if subject.projects ≠ [] ∧ other.projects ≠ [] ∧
      sharedProjectsOf subject other ≠ [] then
    [projCandidate subject other]
  else [])

/-- One step of the duplicate-removal dict of `detect_links_in_entry`
(link_service.py lines 186-191): a candidate replaces the stored one for
its target id exactly when its strength is strictly greater; a new target
id is appended. -/
def dedupStep (acc : List Candidate) (c : Candidate) : List Candidate :=
  if acc.any (fun d => decide (d.to_entry_id = c.to_entry_id)) then
    acc.map fun d =>
      if d.to_entry_id = c.to_entry_id ∧ d.strength < c.strength then c else d
  else acc ++ [c]

/-- Keep the single highest-strength candidate per target id, first-seen
key order, ties keeping the earlier candidate (the insertion-ordered dict
of link_service.py lines 186-192). -/
def dedupByTarget (l : List Candidate) : List Candidate :=
  l.foldl dedupStep []

/-- `LinkService.detect_links_in_entry` (link_service.py lines 115-192):
raw candidates against every other entry of the population, filtered by
the minimum strength, then deduplicated by target id. -/
def detect_links_in_entry (population : List Entry) (entry : Entry)
    (min_strength : ℚ) : List Candidate :=
  dedupByTarget
    (((population.filter fun e => decide (e.id ≠ entry.id)).flatMap
        (candidatesFor entry)).filter
      fun c => decide (min_strength ≤ c.strength))

/-! ## Auto-linker (link_service.py lines 194-238) -/

/-- The creation loop of `auto_link_entry` (link_service.py lines
208-218): call `create_link` for each candidate with
`is_automatic := true`, incrementing the counter whenever a link object
comes back — which, as in the source, also happens for an already
existing unchanged link. -/
def createAll (eid : String) (D : List Candidate) (acc : LinkStore × Nat) :
    LinkStore × Nat :=
  D.foldl
    (fun acc c =>
      let r := create_link acc.1 eid c.to_entry_id c.link_type
        c.context c.strength true
      (r.1, acc.2 + if r.2.isSome then 1 else 0))
    acc

/-- `LinkService.auto_link_entry` (link_service.py lines 194-220): run the
detector, then the creation loop over the detected candidates. -/
def auto_link_entry (population : List Entry) (s : LinkStore) (entry : Entry)
    (min_strength : ℚ) : LinkStore × Nat :=
  createAll entry.id (detect_links_in_entry population entry min_strength)
    (s, 0)

/-- `LinkService.auto_link_all_entries` (link_service.py lines 222-238):
run `auto_link_entry` over every entry, summing the counts. -/
def auto_link_all_entries (population : List Entry) (s : LinkStore)
    (min_strength : ℚ) : LinkStore × Nat :=
  population.foldl
    (fun acc e =>
      let r := auto_link_entry population acc.1 e min_strength
      (r.1, acc.2 + r.2))
    (s, 0)

/-! ## Relevance engine (link_service.py lines 240-294) -/

/-- Outgoing links of an entry: the rows with the given source id, in row
order (`entry.outgoing_links` of models.py). -/
def outgoing (s : LinkStore) (eid : String) : List EntryLink :=
  s.links.filter fun l => decide (l.from_entry_id = eid)

/-- Incoming links of an entry (`entry.incoming_links` of models.py). -/
def incoming (s : LinkStore) (eid : String) : List EntryLink :=
  s.links.filter fun l => decide (l.to_entry_id = eid)

/-- `related_scores[k] += v` on a `defaultdict(float)` whose key order is
first-touch order (link_service.py line 258). -/
def bump (m : List (String × ℚ)) (k : String) (v : ℚ) : List (String × ℚ) :=
  if m.any (fun p => decide (p.1 = k)) then
    m.map fun p => if p.1 = k then (p.1, p.2 + v) else p
  else m ++ [(k, v)]

/-- The direct outgoing contributions (link_service.py lines 261-262):
each link `subject → X` contributes `strength * 1.0` to `score[X]`. -/
def outContribs (s : LinkStore) (eid : String) : List (String × ℚ) :=
  (outgoing s eid).map fun l => (l.to_entry_id, l.strength * 1)

/-- The direct incoming contributions (link_service.py lines 265-266):
each link `Y → subject` contributes `strength * 0.8` to `score[Y]`. -/
def inContribs (s : LinkStore) (eid : String) : List (String × ℚ) :=
  (incoming s eid).map fun l => (l.from_entry_id, l.strength * (4/5))

/-- The two-hop contributions (link_service.py lines 268-274): for every
link `subject → X` and every link `X → Z` with `Z ≠ subject`, the pair
contributes `strength(subject→X) * strength(X→Z) * 0.3` to `score[Z]`. -/
def indirectContribs (s : LinkStore) (eid : String) : List (String × ℚ) :=
  (outgoing s eid).flatMap fun l =>
    ((outgoing s l.to_entry_id).filter
        fun il => decide (il.to_entry_id ≠ eid)).map
      fun il => (il.to_entry_id, l.strength * il.strength * (3/10))

/-- The full contribution sequence of one `find_related_entries` run, in
the order the three source loops emit it. -/
def relContribs (s : LinkStore) (eid : String) (include_indirect : Bool) :
    List (String × ℚ) :=
  outContribs s eid ++ inContribs s eid ++
    if include_indirect then indirectContribs s eid else []

/-- The accumulated `related_scores` dict of `find_related_entries`
(link_service.py lines 258-274): the three contribution loops applied in
source order to an initially empty insertion-ordered map. -/
def relatedScores (s : LinkStore) (eid : String) (include_indirect : Bool) :
    List (String × ℚ) :=
  (relContribs s eid include_indirect).foldl (fun m p => bump m p.1 p.2) []

/-- Stable insertion of `x` into a list sorted by the strict "comes
before" test `gt`: `x` is placed before the first element it beats, after
every earlier element it ties with. -/
def insBy {α : Type} (gt : α → α → Bool) (x : α) : List α → List α
  | [] => [x]
  | y :: ys => if gt x y then x :: y :: ys else y :: insBy gt x ys

/-- Stable sort by the strict "comes before" test `gt` — the unique output
of Python's stable `sorted`/`list.sort` for the same ordering. -/
def sortBy {α : Type} (gt : α → α → Bool) (l : List α) : List α :=
  l.foldl (fun acc x => insBy gt x acc) []

/-- `LinkService.find_related_entries` (link_service.py lines 240-294):
accumulate the scores, sort by descending score (stable, so ties stay in
first-touch order), truncate to `max_results`, and resolve each id against
the entry population. -/
def find_related_entries (population : List Entry) (s : LinkStore)
    (entry : Entry) (max_results : Nat) (include_indirect : Bool) :
    List (Entry × ℚ) :=
  let sorted :=
    (sortBy (fun a b => decide (b.2 < a.2))
      (relatedScores s entry.id include_indirect)).take max_results
  sorted.filterMap fun p =>
    (population.find? fun e => decide (e.id = p.1)).map fun e => (e, p.2)

/-- Sum of the contributions a contribution list makes to one key. -/
def keyTotal (l : List (String × ℚ)) (k : String) : ℚ :=
  ((l.filter fun p => decide (p.1 = k)).map fun p => p.2).sum

/-- Lookup in an accumulated score map (first entry with the key). -/
def scoreLookup (m : List (String × ℚ)) (k : String) : Option ℚ :=
  (m.find? fun p => decide (p.1 = k)).map fun p => p.2

/-- Whether a contribution list touches a key at all. -/
def keyOccurs (l : List (String × ℚ)) (k : String) : Bool :=
  l.any fun p => decide (p.1 = k)

/-- The scoring formula of the specification, for one candidate entry
`X`: every edge `subject → X` contributes its strength times 1.0, every
edge `X → subject` its strength times 0.8, and every two-hop path
`subject → Y → X` with `X ≠ subject` the product of the two strengths
times 0.3, summed over all contributing paths. -/
def specScore (s : LinkStore) (eid X : String) : ℚ :=
  (((outgoing s eid).filter fun l => decide (l.to_entry_id = X)).map
    fun l => l.strength * 1).sum +
  (((incoming s eid).filter fun l => decide (l.from_entry_id = X)).map
    fun l => l.strength * (4/5)).sum +
  ((outgoing s eid).map fun l =>
    ((((outgoing s l.to_entry_id).filter fun il =>
          decide (il.to_entry_id ≠ eid)).filter fun il =>
        decide (il.to_entry_id = X)).map
      fun il => l.strength * il.strength * (3/10)).sum).sum

/-! ## Cluster finder (link_service.py lines 345-385) -/

/-- The keys of the adjacency dict, in insertion order: for each link its
source id then its target id, first insertion kept
(link_service.py lines 357-362). -/
def nodesOf (s : LinkStore) : List String :=
  dedupFirst (s.links.flatMap fun l => [l.from_entry_id, l.to_entry_id])

/-- The undirected adjacency test built from all links
(link_service.py lines 360-362): each link connects its two endpoints in
both directions. -/
def adjB (s : LinkStore) (a b : String) : Bool :=
  s.links.any fun l =>
    decide ((l.from_entry_id = a ∧ l.to_entry_id = b) ∨
      (l.from_entry_id = b ∧ l.to_entry_id = a))

/-- The neighbour set `adjacency[a]` as a list of node ids. -/
def nbrs (s : LinkStore) (a : String) : List String :=
  (nodesOf s).filter fun b => adjB s a b

/-- The depth-first traversal of `find_clusters`
(link_service.py lines 368-373), as an explicit work-stack loop over a
shared visited list; `fuel` bounds the number of steps.  Each popped node
is skipped when already visited, otherwise marked visited and its
neighbours pushed. -/
def dfsAux (s : LinkStore) : Nat → List String → List String → List String
  | 0, visited, _ => visited
  | _ + 1, visited, [] => visited
  | fuel + 1, visited, n :: stack =>
    if n ∈ visited then dfsAux s fuel visited stack
    else dfsAux s fuel (visited ++ [n]) (nbrs s n ++ stack)

/-- Enough fuel for `dfsAux` to run any single-source traversal of the
store's graph to completion. -/
def dfsFuel (s : LinkStore) : Nat :=
  (nodesOf s).length * ((nodesOf s).length + 1) + 1

/-- One iteration of the component loop of `find_clusters`
(link_service.py lines 375-380): an already visited root is skipped;
otherwise its component is traversed and kept as a cluster when at least
`m` entries large. -/
def clustersStep (s : LinkStore) (m : Nat)
    (acc : List String × List (List String)) (r : String) :
    List String × List (List String) :=
  if r ∈ acc.1 then acc
  else
    let visited := dfsAux s (dfsFuel s) acc.1 [r]
    let cluster := visited.filter fun x => decide (x ∉ acc.1)
    (visited, if m ≤ cluster.length then acc.2 ++ [cluster] else acc.2)

/-- `LinkService.find_clusters` (link_service.py lines 345-385): connected
components of the undirected link graph, filtered by minimum size and
sorted by descending size (stable). -/
def find_clusters (s : LinkStore) (min_cluster_size : Nat) :
    List (List String) :=
  sortBy (fun a b => decide (b.length < a.length))
    (((nodesOf s).foldl (clustersStep s min_cluster_size) ([], [])).2)

/-- A link with its direction reversed. -/
def reverseLink (l : EntryLink) : EntryLink :=
  { l with from_entry_id := l.to_entry_id, to_entry_id := l.from_entry_id }

/-- The store with the direction of every link selected by `f` reversed. -/
def reverseWhere (s : LinkStore) (f : EntryLink → Bool) : LinkStore :=
  { s with links := s.links.map fun l => if f l then reverseLink l else l }

/-- The undirected adjacency relation of the cluster graph, as a
proposition. -/
def adjRel (s : LinkStore) (a b : String) : Prop := adjB s a b = true

/-- Undirected reachability over the cluster graph: the reflexive
transitive closure of adjacency. -/
def reach (s : LinkStore) : String → String → Prop :=
  Relation.ReflTransGen (adjRel s)

/-- The id well-formedness every store reachable by the service satisfies:
row ids are pairwise distinct and below the id counter. -/
def WF (s : LinkStore) : Prop :=
  (∀ l ∈ s.links, l.id < s.nextId) ∧ (s.links.map fun l => l.id).Nodup

/-- Two cluster lists describe the same partition: each cluster of one
has a cluster of the other with exactly the same members. -/
def clustersSetEq (L1 L2 : List (List String)) : Prop :=
  (∀ c ∈ L1, ∃ c2 ∈ L2, ∀ x, (x ∈ c ↔ x ∈ c2)) ∧
  (∀ c ∈ L2, ∃ c2 ∈ L1, ∀ x, (x ∈ c ↔ x ∈ c2))

/-- The loop invariant of the component loop of `find_clusters`, after
the roots `P` have been processed: the visited list is duplicate-free and
holds exactly the nodes reachable from a processed root; every emitted
cluster is a duplicate-free component of size at least `m` rooted at some
node; and every processed root whose component has size at least `m` has
its component emitted. -/
def ClustersInv (s : LinkStore) (m : Nat) (P : List String)
    (acc : List String × List (List String)) : Prop :=
  acc.1.Nodup ∧
  (∀ x, x ∈ acc.1 ↔ ∃ r ∈ P, reach s r x) ∧
  (∀ c ∈ acc.2, c.Nodup ∧ m ≤ c.length ∧
    ∃ r, r ∈ nodesOf s ∧ ∀ x, x ∈ c ↔ reach s r x) ∧
  (∀ r ∈ P, ∀ w : List String, w.Nodup → (∀ x, x ∈ w ↔ reach s r x) →
    m ≤ w.length → ∃ c ∈ acc.2, ∀ x, x ∈ c ↔ reach s r x)

/-! ## Concrete fixtures

Small entry populations and stores used to evaluate the service at
concrete inputs. -/

/-- A subject entry whose content mentions the title of `eT`. -/
def eS : Entry := ⟨"S", ['a'], ['x', 'b', 'c', 'y'], [], []⟩

/-- An entry with title "bc", mentioned by `eS`. -/
def eT : Entry := ⟨"T", ['b', 'c'], [], [], []⟩

/-- A two-entry population where detection finds exactly one candidate. -/
def popST : List Entry := [eS, eT]

/-- Entry A of the three-entry relevance scenario. -/
def eA : Entry := ⟨"A", ['a'], [], [], []⟩

/-- Entry B of the three-entry relevance scenario. -/
def eB : Entry := ⟨"B", ['b'], [], [], []⟩

/-- Entry C of the three-entry relevance scenario. -/
def eC : Entry := ⟨"C", ['c'], [], [], []⟩

/-- The population of the three-entry relevance scenario. -/
def popABC : List Entry := [eA, eB, eC]

/-- The store holding exactly A→B (strength 0.9) and B→C (strength 0.5),
built through `create_link`. -/
def sABC : LinkStore :=
  (create_link
    (create_link store0 "A" "B" LinkType.references none (9/10) false).1
    "B" "C" LinkType.references none (1/2) false).1

/-- A store holding a single A→B link of strength 0. -/
def sZero : LinkStore :=
  (create_link store0 "A" "B" LinkType.references none 0 false).1

/-- A store holding a single A→B link of strength 1. -/
def sAB : LinkStore :=
  (create_link store0 "A" "B" LinkType.references none 1 false).1

/-- A subject entry with one-letter title and content. -/
def subjS : Entry := ⟨"S", ['a'], ['b'], [], []⟩

/-- A malformed population entry: empty title and empty content. -/
def malE : Entry := ⟨"E", [], [], [], []⟩

/-- The same population entry with a well-formed title that does not occur
in the subject text. -/
def goodE : Entry := ⟨"E", ['z', 'z', 'z'], [], [], []⟩

/-- The single A→B row of the store `sAB`. -/
def linkAB : EntryLink := ⟨0, "A", "B", LinkType.references, 1, none, 0, false⟩

/-- The first stored link of the store an operation produced (a fixed
fallback row for the empty case). -/
def linkST : EntryLink :=
  (auto_link_entry popST store0 eS (1/2)).1.links.getD 0
    ⟨0, "", "", LinkType.references, 0, none, 0, false⟩

/-- A subject that both mentions `eB4`'s title and shares two tags with
it. -/
def eA4 : Entry := ⟨"A4", ['a'], ['x', 'b', 'c', 'y'], ["t1", "t2"], []⟩

/-- The target entry of the C4 witness scenario. -/
def eB4 : Entry := ⟨"B4", ['b', 'c'], [], ["t1", "t2"], []⟩

/-- The population of the C4 witness scenario. -/
def pop4 : List Entry := [eA4, eB4]

/-! ## Lemmas about the link repository -/

/-- A found link matches the key it was looked up by. -/
lemma findExisting_key {s : LinkStore} {f t : String} {ty : LinkType}
    {e : EntryLink} (h : findExisting s f t ty = some e) :
    e.from_entry_id = f ∧ e.to_entry_id = t ∧ e.link_type = ty := by
  have h' := List.find?_some h
  simpa using h'

/-- A found link is stored. -/
lemma findExisting_mem {s : LinkStore} {f t : String} {ty : LinkType}
    {e : EntryLink} (h : findExisting s f t ty = some e) : e ∈ s.links :=
  List.mem_of_find?_eq_some h

/-- Replacing, by id, the first link a search finds with a link that still
satisfies the search makes the search find the replacement. -/
lemma find?_map_update {links : List EntryLink} {e e2 : EntryLink}
    {key : EntryLink → Bool} (hfind : links.find? key = some e)
    (hkey : key e2 = true) :
    (links.map fun l => if l.id = e.id then e2 else l).find? key = some e2 := by
  induction links with
  | nil => simp at hfind
  | cons a as ih =>
    by_cases ha : key a = true
    · rw [List.find?_cons_of_pos as ha] at hfind
      cases hfind
      simp only [List.map_cons, if_pos rfl]
      exact List.find?_cons_of_pos _ hkey
    · have ha' : ¬ key a := ha
      rw [List.find?_cons_of_neg as ha'] at hfind
      simp only [List.map_cons]
      by_cases hid : a.id = e.id
      · rw [if_pos hid]
        exact List.find?_cons_of_pos _ hkey
      · rw [if_neg hid]
        rw [List.find?_cons_of_neg _ ha']
        exact ih hfind

/-- `create_link` on an existing key with strictly greater strength:
the store maps the found link to its update, and that update is
both returned and found by a fresh key lookup. -/
lemma create_link_update {s : LinkStore} {f t : String} {ty : LinkType}
    {ctx : Option (List Char)} {σ : ℚ} {b : Bool} {e : EntryLink}
    (hfind : findExisting s f t ty = some e) (hlt : e.strength < σ) :
    create_link s f t ty ctx σ b =
      ({ s with links := s.links.map fun l =>
          if l.id = e.id then { e with strength := σ, context := ctx } else l },
        some { e with strength := σ, context := ctx }) := by
  unfold create_link
  rw [hfind]
  simp [hlt]

/-- `create_link` on an existing key without strictly greater strength
leaves the store untouched and returns the existing link. -/
lemma create_link_noop {s : LinkStore} {f t : String} {ty : LinkType}
    {ctx : Option (List Char)} {σ : ℚ} {b : Bool} {e : EntryLink}
    (hfind : findExisting s f t ty = some e) (hle : ¬ e.strength < σ) :
    create_link s f t ty ctx σ b = (s, some e) := by
  unfold create_link
  rw [hfind]
  simp [hle]

/-- After an update, a fresh lookup of the same key finds the update. -/
lemma findExisting_after_update {s : LinkStore} {f t : String}
    {ty : LinkType} {ctx : Option (List Char)} {σ : ℚ} {e : EntryLink}
    (hfind : findExisting s f t ty = some e) :
    findExisting
      { s with links := s.links.map fun l =>
          if l.id = e.id then { e with strength := σ, context := ctx } else l }
      f t ty = some { e with strength := σ, context := ctx } := by
  have hkey := findExisting_key hfind
  exact find?_map_update hfind (by simp [hkey.1, hkey.2.1, hkey.2.2])

/-- `create_link` when no link with the key exists: a fresh row is
appended and the counter advances. -/
lemma create_link_new {s : LinkStore} {f t : String} {ty : LinkType}
    {ctx : Option (List Char)} {σ : ℚ} {b : Bool}
    (hfind : findExisting s f t ty = none) :
    create_link s f t ty ctx σ b =
      ({ links := s.links ++ [⟨s.nextId, f, t, ty, σ, ctx, s.nextId, b⟩],
         nextId := s.nextId + 1 },
       some ⟨s.nextId, f, t, ty, σ, ctx, s.nextId, b⟩) := by
  unfold create_link
  rw [hfind]

/-- In a list of links with pairwise distinct ids, ids identify links. -/
lemma eq_of_id_eq {links : List EntryLink}
    (hnd : (links.map fun l => l.id).Nodup) {l1 l2 : EntryLink}
    (h1 : l1 ∈ links) (h2 : l2 ∈ links) (hid : l1.id = l2.id) : l1 = l2 :=
  List.inj_on_of_nodup_map hnd h1 h2 hid

/-- `create_link` preserves id well-formedness. -/
lemma create_link_WF {s : LinkStore} (hWF : WF s) {f t : String}
    {ty : LinkType} {ctx : Option (List Char)} {σ : ℚ} {b : Bool} :
    WF (create_link s f t ty ctx σ b).1 := by
  cases hfind : findExisting s f t ty with
  | some e =>
    by_cases hlt : e.strength < σ
    · rw [create_link_update hfind hlt]
      have hids : ((s.links.map fun l =>
          if l.id = e.id then { e with strength := σ, context := ctx } else l).map
            fun l => l.id) = s.links.map fun l => l.id := by
        rw [List.map_map]
        apply List.map_congr_left
        intro l _
        by_cases h : l.id = e.id <;> simp [h]
      refine ⟨?_, by rw [hids]; exact hWF.2⟩
      intro l hl
      rcases List.mem_map.1 hl with ⟨l0, hl0, rfl⟩
      have hid : (if l0.id = e.id then
          { e with strength := σ, context := ctx } else l0).id = l0.id := by
        by_cases h : l0.id = e.id <;> simp [h]
      rw [hid]
      exact hWF.1 l0 hl0
    · rw [create_link_noop hfind hlt]
      exact hWF
  | none =>
    rw [create_link_new hfind]
    refine ⟨?_, ?_⟩
    · intro l hl
      rcases List.mem_append.1 hl with h | h
      · exact Nat.lt_succ_of_lt (hWF.1 l h)
      · simp at h
        rw [h]
        exact Nat.lt_succ_self _
    · rw [List.map_append]
      refine List.Nodup.append hWF.2 (by simp) ?_
      intro x hx hx2
      simp at hx2
      rcases List.mem_map.1 hx with ⟨l, hl, rfl⟩
      exact absurd (hWF.1 l hl) (by rw [hx2]; exact Nat.lt_irrefl _)

/-- Everything `create_link` stores either keeps the endpoints of a
previously stored link (with its old strength or the new one), or is the
freshly keyed `(f, t)` row of strength `σ`. -/
lemma create_link_shape {s : LinkStore} {f t : String} {ty : LinkType}
    {ctx : Option (List Char)} {σ : ℚ} {b : Bool} :
    ∀ l2 ∈ (create_link s f t ty ctx σ b).1.links,
      (∃ l ∈ s.links, l2.from_entry_id = l.from_entry_id ∧
        l2.to_entry_id = l.to_entry_id ∧
        (l2.strength = l.strength ∨ l2.strength = σ)) ∨
      (l2.from_entry_id = f ∧ l2.to_entry_id = t ∧ l2.strength = σ) := by
  intro l2 hl2
  cases hfind : findExisting s f t ty with
  | some e =>
    by_cases hlt : e.strength < σ
    · rw [create_link_update hfind hlt] at hl2
      rcases List.mem_map.1 hl2 with ⟨l0, hl0, rfl⟩
      by_cases h : l0.id = e.id
      · exact Or.inl ⟨e, findExisting_mem hfind, by simp [h]⟩
      · exact Or.inl ⟨l0, hl0, by simp [h]⟩
    · rw [create_link_noop hfind hlt] at hl2
      exact Or.inl ⟨l2, hl2, rfl, rfl, Or.inl rfl⟩
  | none =>
    rw [create_link_new hfind] at hl2
    rcases List.mem_append.1 hl2 with h | h
    · exact Or.inl ⟨l2, h, rfl, rfl, Or.inl rfl⟩
    · simp at h
      rw [h]
      exact Or.inr ⟨rfl, rfl, rfl⟩

/-- `create_link` never lowers the strength stored under any link id. -/
lemma create_link_mono {s : LinkStore} (hWF : WF s) {f t : String}
    {ty : LinkType} {ctx : Option (List Char)} {σ : ℚ} {b : Bool}
    {l : EntryLink} (hl : l ∈ s.links) :
    ∃ l2 ∈ (create_link s f t ty ctx σ b).1.links,
      l2.id = l.id ∧ l.strength ≤ l2.strength := by
  cases hfind : findExisting s f t ty with
  | some e =>
    by_cases hlt : e.strength < σ
    · rw [create_link_update hfind hlt]
      by_cases h : l.id = e.id
      · have hle : l = e := eq_of_id_eq hWF.2 hl (findExisting_mem hfind) h
        refine ⟨{ e with strength := σ, context := ctx },
          List.mem_map.2 ⟨l, hl, by simp [h]⟩, by simp [hle], ?_⟩
        rw [hle]
        exact le_of_lt hlt
      · exact ⟨l, List.mem_map.2 ⟨l, hl, by simp [h]⟩, rfl, le_refl _⟩
    · rw [create_link_noop hfind hlt]
      exact ⟨l, hl, rfl, le_refl _⟩
  | none =>
    rw [create_link_new hfind]
    exact ⟨l, List.mem_append.2 (Or.inl hl), rfl, le_refl _⟩

/-- Unfolding one step of the creation loop. -/
lemma createAll_cons {eid : String} {c : Candidate} {D : List Candidate}
    {s : LinkStore} {n : Nat} :
    createAll eid (c :: D) (s, n) =
      createAll eid D
        ((create_link s eid c.to_entry_id c.link_type c.context c.strength
            true).1,
          n + if (create_link s eid c.to_entry_id c.link_type c.context
              c.strength true).2.isSome then 1 else 0) := rfl

/-- The creation loop preserves id well-formedness. -/
lemma createAll_WF {eid : String} {D : List Candidate} :
    ∀ (s : LinkStore) (n : Nat), WF s → WF (createAll eid D (s, n)).1 := by
  induction D with
  | nil => intro s n h; exact h
  | cons c D ih =>
    intro s n h
    rw [createAll_cons]
    exact ih _ _ (create_link_WF h)

/-- The creation loop never lowers the strength stored under any id. -/
lemma createAll_mono {eid : String} {D : List Candidate} :
    ∀ (s : LinkStore) (n : Nat), WF s → ∀ l ∈ s.links,
      ∃ l2 ∈ (createAll eid D (s, n)).1.links,
        l2.id = l.id ∧ l.strength ≤ l2.strength := by
  induction D with
  | nil => intro s n _ l hl; exact ⟨l, hl, rfl, le_refl _⟩
  | cons c D ih =>
    intro s n hWF l hl
    rcases @create_link_mono s hWF eid c.to_entry_id c.link_type c.context
      c.strength true l hl with ⟨l1, hl1, hid1, hle1⟩
    rw [createAll_cons]
    rcases ih _ _ (create_link_WF hWF) l1 hl1 with ⟨l2, hl2, hid2, hle2⟩
    exact ⟨l2, hl2, by rw [hid2, hid1], le_trans hle1 hle2⟩

/-! ## Claim theorems C2 and C10 -/

/-- Claim C2: for an existing `(from, to, type)` key, `create_link`
updates strength and context in place (and both returns and re-finds the
updated row) exactly when the new strength is strictly greater, and
otherwise returns the existing row with the store untouched; moreover, no
`create_link` call and no auto-link re-detection ever lowers the strength
stored under a link id. -/
theorem claim_C2_upsertMonotone :
    (∀ (s : LinkStore) (f t : String) (ty : LinkType)
        (ctx : Option (List Char)) (σ : ℚ) (b : Bool) (e : EntryLink),
      findExisting s f t ty = some e →
      (e.strength < σ →
        create_link s f t ty ctx σ b =
          ({ s with links := s.links.map fun l =>
              if l.id = e.id then { e with strength := σ, context := ctx }
              else l },
            some { e with strength := σ, context := ctx }) ∧
        findExisting (create_link s f t ty ctx σ b).1 f t ty =
          some { e with strength := σ, context := ctx }) ∧
      (¬ e.strength < σ → create_link s f t ty ctx σ b = (s, some e))) ∧
    (∀ (s : LinkStore), WF s → ∀ (f t : String) (ty : LinkType)
        (ctx : Option (List Char)) (σ : ℚ) (b : Bool), ∀ l ∈ s.links,
      ∃ l2 ∈ (create_link s f t ty ctx σ b).1.links,
        l2.id = l.id ∧ l.strength ≤ l2.strength) ∧
    (∀ (population : List Entry) (s : LinkStore), WF s →
      ∀ (e : Entry) (m : ℚ), ∀ l ∈ s.links,
      ∃ l2 ∈ (auto_link_entry population s e m).1.links,
        l2.id = l.id ∧ l.strength ≤ l2.strength) := by
  refine ⟨?_, ?_, ?_⟩
  · intro s f t ty ctx σ b e hfind
    constructor
    · intro hlt
      refine ⟨create_link_update hfind hlt, ?_⟩
      rw [create_link_update hfind hlt]
      exact findExisting_after_update hfind
    · intro hle
      exact create_link_noop hfind hle
  · intro s hWF f t ty ctx σ b l hl
    exact create_link_mono hWF hl
  · intro population s hWF e m l hl
    exact createAll_mono s 0 hWF l hl

/-- Witness for C2: re-detecting the stored A→B link of strength 1 with
strength 2 updates it in place and re-finds the update, and an
auto-linking run on a well-formed store never lowers its strength. -/
theorem claim_C2_witness :
    (create_link sAB "A" "B" LinkType.references none 2 false =
      ({ sAB with links := sAB.links.map fun l =>
          if l.id = linkAB.id then { linkAB with strength := 2, context := none }
          else l },
        some { linkAB with strength := 2, context := none }) ∧
    findExisting (create_link sAB "A" "B" LinkType.references none 2 false).1
        "A" "B" LinkType.references =
      some { linkAB with strength := 2, context := none }) ∧
    ∃ l2 ∈ (auto_link_entry popST sAB eS (1/2)).1.links,
      l2.id = linkAB.id ∧ linkAB.strength ≤ l2.strength :=
  ⟨(claim_C2_upsertMonotone.1 sAB "A" "B" LinkType.references none 2 false
      linkAB (by with_unfolding_all decide)).1 (by with_unfolding_all decide),
    claim_C2_upsertMonotone.2.2 popST sAB
      (by unfold WF; with_unfolding_all decide) eS (1/2) linkAB
      (by with_unfolding_all decide)⟩

/-- Claim C10: a `create_link` call that hits an existing `(from, to,
type)` key never modifies the row's id, endpoints, type, automatic flag
or creation time — only strength and context, and only when the new
strength is strictly greater — and leaves every other stored link in
place.  In particular a manual edge stays `is_automatic = false` when
re-detected with higher strength. -/
theorem claim_C10_frameFields :
    ∀ (s : LinkStore) (f t : String) (ty : LinkType)
      (ctx : Option (List Char)) (σ : ℚ) (b : Bool) (e : EntryLink),
      findExisting s f t ty = some e →
      ∃ e2, findExisting (create_link s f t ty ctx σ b).1 f t ty = some e2 ∧
        e2.id = e.id ∧ e2.from_entry_id = e.from_entry_id ∧
        e2.to_entry_id = e.to_entry_id ∧ e2.link_type = e.link_type ∧
        e2.is_automatic = e.is_automatic ∧ e2.created_at = e.created_at ∧
        e2.strength = (if e.strength < σ then σ else e.strength) ∧
        e2.context = (if e.strength < σ then ctx else e.context) ∧
        ∀ l ∈ s.links, l.id ≠ e.id →
          l ∈ (create_link s f t ty ctx σ b).1.links := by
  intro s f t ty ctx σ b e hfind
  by_cases hlt : e.strength < σ
  · refine ⟨{ e with strength := σ, context := ctx }, ?_, rfl, rfl, rfl, rfl,
      rfl, rfl, by simp [hlt], by simp [hlt], ?_⟩
    · rw [create_link_update hfind hlt]
      exact findExisting_after_update hfind
    · intro l hl hid
      rw [create_link_update hfind hlt]
      exact List.mem_map.2 ⟨l, hl, by simp [hid]⟩
  · refine ⟨e, ?_, rfl, rfl, rfl, rfl, rfl, rfl, by simp [hlt], by simp [hlt], ?_⟩
    · rw [create_link_noop hfind hlt]
      exact hfind
    · intro l hl _
      rw [create_link_noop hfind hlt]
      exact hl

/-- Witness for C10: the manual A→B link re-detected automatically with
higher strength keeps its id, endpoints, type, `is_automatic = false` and
creation time. -/
theorem claim_C10_witness :
    ∃ e2, findExisting
        (create_link sAB "A" "B" LinkType.references none 2 true).1
        "A" "B" LinkType.references = some e2 ∧
      e2.id = linkAB.id ∧ e2.from_entry_id = linkAB.from_entry_id ∧
      e2.to_entry_id = linkAB.to_entry_id ∧ e2.link_type = linkAB.link_type ∧
      e2.is_automatic = linkAB.is_automatic ∧
      e2.created_at = linkAB.created_at ∧
      e2.strength = (if linkAB.strength < 2 then 2 else linkAB.strength) ∧
      e2.context = (if linkAB.strength < 2 then none else linkAB.context) ∧
      ∀ l ∈ sAB.links, l.id ≠ linkAB.id →
        l ∈ (create_link sAB "A" "B" LinkType.references none 2 true).1.links :=
  claim_C10_frameFields sAB "A" "B" LinkType.references none 2 true linkAB
    (by with_unfolding_all decide)

/-! ## Claim theorem C1 -/

/-- Claim C1, evaluated at a failing input: on the two-entry population
`popST` the first `auto_link_entry` run detects one candidate, creates the
edge and returns 1; the second, immediate run leaves the edge set exactly
as it was — but returns 1 again, not 0, because `create_link` also returns
the existing unchanged edge and the loop counts every returned link. -/
theorem claim_C1_secondRunEval :
    (auto_link_entry popST store0 eS (1/2)).2 = 1 ∧
    (auto_link_entry popST (auto_link_entry popST store0 eS (1/2)).1 eS
        (1/2)).1 = (auto_link_entry popST store0 eS (1/2)).1 ∧
    (auto_link_entry popST (auto_link_entry popST store0 eS (1/2)).1 eS
        (1/2)).2 = 1 := by
  with_unfolding_all decide

/-! ## Lemmas about candidate deduplication -/

/-- In a candidate list with pairwise distinct target ids, the target id
identifies the candidate. -/
lemma keysNodup_unique {acc : List Candidate}
    (ha : (acc.map fun d => d.to_entry_id).Nodup) {d1 d2 : Candidate}
    (h1 : d1 ∈ acc) (h2 : d2 ∈ acc)
    (hk : d1.to_entry_id = d2.to_entry_id) : d1 = d2 :=
  List.inj_on_of_nodup_map ha h1 h2 hk

/-- One dedup step keeps the target ids pairwise distinct. -/
lemma dedupStep_keysNodup {acc : List Candidate} {c : Candidate}
    (ha : (acc.map fun d => d.to_entry_id).Nodup) :
    ((dedupStep acc c).map fun d => d.to_entry_id).Nodup := by
  unfold dedupStep
  by_cases h : acc.any (fun d => decide (d.to_entry_id = c.to_entry_id)) = true
  · rw [if_pos h]
    have : ((acc.map fun d =>
        if d.to_entry_id = c.to_entry_id ∧ d.strength < c.strength then c
        else d).map fun d => d.to_entry_id) = acc.map fun d => d.to_entry_id := by
      rw [List.map_map]
      apply List.map_congr_left
      intro d _
      by_cases hd : d.to_entry_id = c.to_entry_id ∧ d.strength < c.strength
      · simp [hd, hd.1]
      · simp [hd]
    rw [this]
    exact ha
  · rw [if_neg h]
    rw [List.map_append]
    refine List.Nodup.append ha (by simp) ?_
    intro x hx hx2
    simp at hx2
    rcases List.mem_map.1 hx with ⟨d, hd, rfl⟩
    rw [List.any_eq_true] at h
    exact h ⟨d, hd, by simp [hx2]⟩

/-- Everything a dedup step outputs was in the accumulator or is the
incoming candidate. -/
lemma dedupStep_mem_src {acc : List Candidate} {c d : Candidate}
    (hd : d ∈ dedupStep acc c) : d ∈ acc ∨ d = c := by
  unfold dedupStep at hd
  by_cases h : acc.any (fun d => decide (d.to_entry_id = c.to_entry_id)) = true
  · rw [if_pos h] at hd
    rcases List.mem_map.1 hd with ⟨d0, hd0, rfl⟩
    by_cases h0 : d0.to_entry_id = c.to_entry_id ∧ d0.strength < c.strength
    · rw [if_pos h0]
      exact Or.inr rfl
    · rw [if_neg h0]
      exact Or.inl hd0
  · rw [if_neg h] at hd
    rcases List.mem_append.1 hd with h1 | h1
    · exact Or.inl h1
    · simp at h1
      exact Or.inr h1

/-- Everything the dedup fold outputs was in the accumulator or in the
input list. -/
lemma dedupFold_mem_src {todo : List Candidate} :
    ∀ {acc : List Candidate} {d : Candidate},
      d ∈ todo.foldl dedupStep acc → d ∈ acc ∨ d ∈ todo := by
  induction todo with
  | nil => intro acc d hd; exact Or.inl hd
  | cons c todo ih =>
    intro acc d hd
    rcases ih hd with h | h
    · rcases dedupStep_mem_src h with h1 | h1
      · exact Or.inl h1
      · exact Or.inr (by rw [h1]; exact List.mem_cons_self c todo)
    · exact Or.inr (List.mem_cons_of_mem c h)

/-- The dedup fold keeps target ids pairwise distinct. -/
lemma dedupFold_keysNodup {todo : List Candidate} :
    ∀ {acc : List Candidate},
      ((acc.map fun d => d.to_entry_id).Nodup) →
      (((todo.foldl dedupStep acc).map fun d => d.to_entry_id)).Nodup := by
  induction todo with
  | nil => intro acc ha; exact ha
  | cons c todo ih =>
    intro acc ha
    exact ih (dedupStep_keysNodup ha)

/-- `dedupByTarget` outputs a sublist of its input's candidates. -/
lemma dedupByTarget_mem_src {l : List Candidate} {d : Candidate}
    (hd : d ∈ dedupByTarget l) : d ∈ l := by
  rcases dedupFold_mem_src hd with h | h
  · simp at h
  · exact h

/-- `dedupByTarget` outputs pairwise distinct target ids. -/
lemma dedupByTarget_keysNodup {l : List Candidate} :
    ((dedupByTarget l).map fun d => d.to_entry_id).Nodup :=
  dedupFold_keysNodup (by simp)

/-- A candidate that is never strictly beaten at its target id survives a
dedup step it is already in. -/
lemma dedupStep_keeps_t {acc : List Candidate} {c t : Candidate}
    (hc : c.to_entry_id = t.to_entry_id → c = t ∨ c.strength < t.strength)
    (ht : t ∈ acc) : t ∈ dedupStep acc c := by
  unfold dedupStep
  by_cases h : acc.any (fun d => decide (d.to_entry_id = c.to_entry_id)) = true
  · rw [if_pos h]
    refine List.mem_map.2 ⟨t, ht, ?_⟩
    rw [if_neg ?_]
    rintro ⟨hk, hlt⟩
    rcases hc hk.symm with rfl | hw
    · exact lt_irrefl _ hlt
    · exact absurd hlt (not_lt.2 (le_of_lt hw))
  · rw [if_neg h]
    exact List.mem_append_left _ ht

/-- A candidate strictly stronger than every accumulated candidate at its
target id enters the accumulator on its dedup step. -/
lemma dedupStep_arrival {acc : List Candidate} {t : Candidate}
    (hb : ∀ d ∈ acc, d.to_entry_id = t.to_entry_id →
      d = t ∨ d.strength < t.strength) :
    t ∈ dedupStep acc t := by
  unfold dedupStep
  by_cases h : acc.any (fun d => decide (d.to_entry_id = t.to_entry_id)) = true
  · rw [if_pos h]
    rw [List.any_eq_true] at h
    rcases h with ⟨d, hd, hdk⟩
    simp only [decide_eq_true_eq] at hdk
    rcases hb d hd hdk with rfl | hw
    · exact List.mem_map.2 ⟨d, hd, by rw [ite_self]⟩
    · exact List.mem_map.2 ⟨d, hd, by rw [if_pos ⟨hdk, hw⟩]⟩
  · rw [if_neg h]
    exact List.mem_append_right _ (by simp)

/-- A strictly strongest candidate at its target id survives the whole
dedup fold. -/
lemma dedupFold_max_mem {L : List Candidate} {t : Candidate}
    (hP : ∀ c ∈ L, c.to_entry_id = t.to_entry_id →
      c = t ∨ c.strength < t.strength) :
    ∀ (todo : List Candidate) (acc : List Candidate),
      (∀ c ∈ todo, c ∈ L) →
      (∀ d ∈ acc, d.to_entry_id = t.to_entry_id →
        d = t ∨ d.strength < t.strength) →
      (t ∈ acc ∨ t ∈ todo) →
      t ∈ todo.foldl dedupStep acc := by
  intro todo
  induction todo with
  | nil =>
    intro acc _ _ hc
    rcases hc with h | h
    · exact h
    · simp at h
  | cons c todo ih =>
    intro acc hsub hb hc
    have hcL : c ∈ L := hsub c (List.mem_cons_self c todo)
    have hb2 : ∀ d ∈ dedupStep acc c, d.to_entry_id = t.to_entry_id →
        d = t ∨ d.strength < t.strength := by
      intro d hd hk
      rcases dedupStep_mem_src hd with h1 | h1
      · exact hb d h1 hk
      · rw [h1] at hk ⊢
        exact hP c hcL hk
    refine ih (dedupStep acc c) (fun x hx => hsub x (List.mem_cons_of_mem c hx))
      hb2 ?_
    rcases hc with h | h
    · exact Or.inl (dedupStep_keeps_t (hP c hcL) h)
    · rcases List.mem_cons.1 h with h1 | h1
      · rw [← h1]
        exact Or.inl (dedupStep_arrival hb)
      · exact Or.inr h1

/-- The dedup of a list containing a strictly strongest candidate `t` at
its target id contains `t`, and `t` is the only output candidate with
that target id. -/
lemma dedupByTarget_max {l : List Candidate} {t : Candidate} (ht : t ∈ l)
    (hP : ∀ c ∈ l, c.to_entry_id = t.to_entry_id →
      c = t ∨ c.strength < t.strength) :
    t ∈ dedupByTarget l ∧
    ∀ d ∈ dedupByTarget l, d.to_entry_id = t.to_entry_id → d = t := by
  have hmem : t ∈ dedupByTarget l :=
    dedupFold_max_mem hP l [] (fun _ h => h) (by simp) (Or.inr ht)
  refine ⟨hmem, ?_⟩
  intro d hd hk
  exact keysNodup_unique dedupByTarget_keysNodup hd hmem hk

/-! ## Lemmas about the detector -/

/-- Membership in the raw per-pair candidate list, by cases on the three
signals. -/
lemma candidatesFor_mem_iff {subject other : Entry} {c : Candidate} :
    c ∈ candidatesFor subject other ↔
      (containsSub (subjectText subject) (lowerChars other.title) = true ∧
        c = titleCandidate subject other) ∨
      ((subject.tags ≠ [] ∧ other.tags ≠ [] ∧
          2 ≤ (sharedTagsOf subject other).length) ∧
        c = tagCandidate subject other) ∨
      ((subject.projects ≠ [] ∧ other.projects ≠ [] ∧
          sharedProjectsOf subject other ≠ []) ∧
        c = projCandidate subject other) := by
  unfold candidatesFor
  by_cases h1 : containsSub (subjectText subject) (lowerChars other.title)
      = true <;>
    by_cases h2 : subject.tags ≠ [] ∧ other.tags ≠ [] ∧
        2 ≤ (sharedTagsOf subject other).length <;>
      by_cases h3 : subject.projects ≠ [] ∧ other.projects ≠ [] ∧
          sharedProjectsOf subject other ≠ [] <;>
        simp [h1, h2, h3]

/-- Every candidate of a pair targets the other entry's id. -/
lemma candidatesFor_target {subject other : Entry} {c : Candidate}
    (hc : c ∈ candidatesFor subject other) : c.to_entry_id = other.id := by
  rcases candidatesFor_mem_iff.1 hc with ⟨_, rfl⟩ | ⟨_, rfl⟩ | ⟨_, rfl⟩ <;> rfl

/-- A candidate of a pair is the title-mention candidate or has strength
at most 0.7. -/
lemma candidatesFor_strength_le {subject other : Entry} {c : Candidate}
    (hc : c ∈ candidatesFor subject other) :
    c = titleCandidate subject other ∨ c.strength ≤ 7/10 := by
  rcases candidatesFor_mem_iff.1 hc with ⟨_, rfl⟩ | ⟨_, rfl⟩ | ⟨_, rfl⟩
  · exact Or.inl rfl
  · exact Or.inr (min_le_left _ _)
  · refine Or.inr ?_
    show (3:ℚ)/5 ≤ 7/10
    norm_num

/-- Every detector strength lies in the unit interval. -/
lemma candidatesFor_strength_range {subject other : Entry} {c : Candidate}
    (hc : c ∈ candidatesFor subject other) :
    0 ≤ c.strength ∧ c.strength ≤ 1 := by
  rcases candidatesFor_mem_iff.1 hc with ⟨_, rfl⟩ | ⟨_, rfl⟩ | ⟨_, rfl⟩
  · constructor
    · show (0:ℚ) ≤ 4/5
      norm_num
    · show (4:ℚ)/5 ≤ 1
      norm_num
  · constructor
    · show (0:ℚ) ≤ min (7/10) (((sharedTagsOf subject other).length : ℚ) * (1/5))
      refine le_min (by norm_num) ?_
      positivity
    · show min ((7:ℚ)/10) (((sharedTagsOf subject other).length : ℚ) * (1/5)) ≤ 1
      exact le_trans (min_le_left _ _) (by norm_num)
  · constructor
    · show (0:ℚ) ≤ 3/5
      norm_num
    · show (3:ℚ)/5 ≤ 1
      norm_num

/-- Every detected candidate comes from a population entry other than the
subject, passed the strength filter, and was one of that pair's raw
candidates. -/
lemma detect_mem_src {population : List Entry} {entry : Entry} {m : ℚ}
    {c : Candidate} (hc : c ∈ detect_links_in_entry population entry m) :
    ∃ o ∈ population, o.id ≠ entry.id ∧ m ≤ c.strength ∧
      c ∈ candidatesFor entry o := by
  unfold detect_links_in_entry at hc
  have h1 := dedupByTarget_mem_src hc
  rw [List.mem_filter] at h1
  rcases h1 with ⟨h2, h3⟩
  rcases List.mem_flatMap.1 h2 with ⟨o, ho, hco⟩
  rw [List.mem_filter] at ho
  exact ⟨o, ho.1, by simpa using ho.2, by simpa using h3, hco⟩

/-- Detected candidates never target the subject itself. -/
lemma detect_target_ne {population : List Entry} {entry : Entry} {m : ℚ}
    {c : Candidate} (hc : c ∈ detect_links_in_entry population entry m) :
    c.to_entry_id ≠ entry.id := by
  rcases detect_mem_src hc with ⟨o, _, hne, _, hco⟩
  rw [candidatesFor_target hco]
  exact hne

/-- In a population with pairwise distinct ids, the id identifies the
entry. -/
lemma entry_unique {population : List Entry}
    (hnodup : (population.map fun e => e.id).Nodup) {o B : Entry}
    (ho : o ∈ population) (hB : B ∈ population) (hid : o.id = B.id) :
    o = B :=
  List.inj_on_of_nodup_map hnodup ho hB hid

/-- When the subject's text mentions `B`'s title and the threshold admits
strength 0.8, the detector returns the title-mention candidate as the
single candidate targeting `B`. -/
lemma detect_title_unique {population : List Entry} {A B : Entry} {m : ℚ}
    (hnodup : (population.map fun e => e.id).Nodup)
    (hB : B ∈ population) (hne : B.id ≠ A.id)
    (htitle : containsSub (subjectText A) (lowerChars B.title) = true)
    (hmin : m ≤ 4/5) :
    titleCandidate A B ∈ detect_links_in_entry population A m ∧
    ∀ d ∈ detect_links_in_entry population A m,
      d.to_entry_id = B.id → d = titleCandidate A B := by
  have ht : titleCandidate A B ∈
      ((population.filter fun e => decide (e.id ≠ A.id)).flatMap
          (candidatesFor A)).filter fun c => decide (m ≤ c.strength) := by
    rw [List.mem_filter]
    refine ⟨List.mem_flatMap.2 ⟨B, ?_, ?_⟩, by simpa using hmin⟩
    · rw [List.mem_filter]
      exact ⟨hB, by simpa using hne⟩
    · exact candidatesFor_mem_iff.2 (Or.inl ⟨htitle, rfl⟩)
  have hP : ∀ c ∈ ((population.filter fun e => decide (e.id ≠ A.id)).flatMap
        (candidatesFor A)).filter (fun c => decide (m ≤ c.strength)),
      c.to_entry_id = (titleCandidate A B).to_entry_id →
      c = titleCandidate A B ∨ c.strength < (titleCandidate A B).strength := by
    intro c hc hk
    rw [List.mem_filter] at hc
    rcases List.mem_flatMap.1 hc.1 with ⟨o, ho, hco⟩
    rw [List.mem_filter] at ho
    have hoid : o.id = B.id := by
      rw [← candidatesFor_target hco]
      exact hk
    have hoB : o = B := entry_unique hnodup ho.1 hB hoid
    rw [hoB] at hco
    rcases candidatesFor_strength_le hco with h | h
    · exact Or.inl h
    · refine Or.inr (lt_of_le_of_lt h ?_)
      show (7:ℚ)/10 < 4/5
      norm_num
  exact dedupByTarget_max ht hP

/-- The empty pattern occurs in every text, as Python's `"" in text`. -/
lemma containsSub_nil (text : List Char) : containsSub text [] = true := by
  cases text <;> simp [containsSub, firstOcc, beginsWith]

/-! ## Claim theorems C9, C7, C8 -/

/-- Claim C9, counterexample: against the subject `subjS`, the population
entry `malE` with empty title and content yields one title-mention
candidate of strength 0.8, while the same entry with the well-formed
title "zzz" yields none — malformed population text produces an
additional candidate, not fewer. -/
theorem claim_C9_cex :
    (detect_links_in_entry [subjS, malE] subjS (1/2)).map
        (fun c => (c.to_entry_id, c.strength, c.reason)) =
      [("E", 4/5, "title_mention")] ∧
    detect_links_in_entry [subjS, goodE] subjS (1/2) = [] := by
  with_unfolding_all decide

/-- Claim C9 as amended: the detector is a total function that never
fails, but a population entry with an empty title matches every subject's
text as a substring, so it yields an additional spurious title-mention
candidate of strength 0.8 toward it for every subject (rather than fewer
or no candidates). -/
theorem claim_C9_emptyTitleSpurious :
    ∀ (population : List Entry) (subject other : Entry) (m : ℚ),
      (population.map fun e => e.id).Nodup →
      other ∈ population → other.id ≠ subject.id → other.title = [] →
      m ≤ 4/5 →
      ∃ c ∈ detect_links_in_entry population subject m,
        c.to_entry_id = other.id ∧ c.strength = 4/5 ∧
        c.reason = "title_mention" := by
  intro population subject other m hnodup ho hne htitle hm
  have hcs : containsSub (subjectText subject) (lowerChars other.title)
      = true := by
    rw [htitle]
    exact containsSub_nil _
  rcases detect_title_unique hnodup ho hne hcs hm with ⟨hmem, _⟩
  exact ⟨titleCandidate subject other, hmem, rfl, rfl, rfl⟩

/-- Witness for C9: the concrete empty-title entry `malE` receives a
spurious title-mention candidate from `subjS`. -/
theorem claim_C9_witness :
    ∃ c ∈ detect_links_in_entry [subjS, malE] subjS (1/2),
      c.to_entry_id = malE.id ∧ c.strength = 4/5 ∧
      c.reason = "title_mention" :=
  claim_C9_emptyTitleSpurious [subjS, malE] subjS malE (1/2)
    (by decide) (by decide) (by decide) (by decide)
    (by with_unfolding_all decide)

/-- Claim C7, counterexample: `create_link` performs no validation and
stores a self-loop when called with equal endpoints. -/
theorem claim_C7_cex :
    ∃ l ∈ (create_link store0 "A" "A" LinkType.references none 1
        false).1.links, l.from_entry_id = l.to_entry_id := by
  with_unfolding_all decide

/-- A `create_link` call with distinct endpoints preserves the
no-self-loop invariant. -/
lemma create_link_noSelfLoop {s : LinkStore} {f t : String} {ty : LinkType}
    {ctx : Option (List Char)} {σ : ℚ} {b : Bool}
    (hs : ∀ l ∈ s.links, l.from_entry_id ≠ l.to_entry_id) (hft : f ≠ t) :
    ∀ l ∈ (create_link s f t ty ctx σ b).1.links,
      l.from_entry_id ≠ l.to_entry_id := by
  intro l hl
  rcases create_link_shape l hl with ⟨l0, hl0, hf, ht, _⟩ | ⟨hf, ht, _⟩
  · rw [hf, ht]
    exact hs l0 hl0
  · rw [hf, ht]
    exact hft

/-- The creation loop preserves the no-self-loop invariant when no
candidate targets the loop's own source id. -/
lemma createAll_noSelfLoop {eid : String} {D : List Candidate}
    (hD : ∀ c ∈ D, c.to_entry_id ≠ eid) :
    ∀ (s : LinkStore) (n : Nat),
      (∀ l ∈ s.links, l.from_entry_id ≠ l.to_entry_id) →
      ∀ l ∈ (createAll eid D (s, n)).1.links,
        l.from_entry_id ≠ l.to_entry_id := by
  induction D with
  | nil => intro s n hs l hl; exact hs l hl
  | cons c D ih =>
    intro s n hs
    rw [createAll_cons]
    refine ih (fun d hd => hD d (List.mem_cons_of_mem c hd)) _ _ ?_
    exact create_link_noSelfLoop hs
      (fun h => hD c (List.mem_cons_self c D) h.symm)

/-- `auto_link_entry` preserves the no-self-loop invariant. -/
lemma auto_link_entry_noSelfLoop {population : List Entry} {s : LinkStore}
    {entry : Entry} {m : ℚ}
    (hs : ∀ l ∈ s.links, l.from_entry_id ≠ l.to_entry_id) :
    ∀ l ∈ (auto_link_entry population s entry m).1.links,
      l.from_entry_id ≠ l.to_entry_id :=
  createAll_noSelfLoop (fun _ hc => detect_target_ne hc) s 0 hs

/-- Claim C7 as amended: the automatic paths never create self-loops —
`auto_link_entry` and `auto_link_all_entries` preserve the no-self-loop
invariant because the detector excludes the subject from the population —
but `create_link` itself does not validate and stores a self-loop when
called directly with `from = to`. -/
theorem claim_C7_noSelfLoopsAuto :
    ∀ (population : List Entry) (s : LinkStore),
      (∀ l ∈ s.links, l.from_entry_id ≠ l.to_entry_id) →
      (∀ (entry : Entry) (m : ℚ),
        ∀ l ∈ (auto_link_entry population s entry m).1.links,
          l.from_entry_id ≠ l.to_entry_id) ∧
      (∀ (m : ℚ),
        ∀ l ∈ (auto_link_all_entries population s m).1.links,
          l.from_entry_id ≠ l.to_entry_id) := by
  intro population s hs
  refine ⟨fun entry m => auto_link_entry_noSelfLoop hs, fun m => ?_⟩
  unfold auto_link_all_entries
  have hfold : ∀ (todo : List Entry) (st : LinkStore) (n : Nat),
      (∀ l ∈ st.links, l.from_entry_id ≠ l.to_entry_id) →
      ∀ l ∈ (todo.foldl (fun acc e =>
          ((auto_link_entry population acc.1 e m).1,
            acc.2 + (auto_link_entry population acc.1 e m).2)) (st, n)).1.links,
        l.from_entry_id ≠ l.to_entry_id := by
    intro todo
    induction todo with
    | nil => intro st n hst l hl; exact hst l hl
    | cons e todo ih =>
      intro st n hst
      exact ih _ _ (auto_link_entry_noSelfLoop hst)
  exact hfold population s 0 hs

/-- Witness for C7: the link auto-created on `popST` is not a self-loop. -/
theorem claim_C7_witness : linkST.from_entry_id ≠ linkST.to_entry_id :=
  (claim_C7_noSelfLoopsAuto popST store0 (by decide)).1 eS (1/2) linkST
    (by with_unfolding_all decide)

/-- Claim C8, counterexample: `create_link` neither clamps nor rejects an
out-of-range strength; the value 1.5 is stored verbatim. -/
theorem claim_C8_cex :
    ∃ l ∈ (create_link store0 "A" "B" LinkType.references none (3/2)
        false).1.links, ¬ (0 ≤ l.strength ∧ l.strength ≤ 1) := by
  with_unfolding_all decide

/-- A `create_link` call with in-range strength preserves the unit-range
invariant. -/
lemma create_link_range {s : LinkStore} {f t : String} {ty : LinkType}
    {ctx : Option (List Char)} {σ : ℚ} {b : Bool}
    (hs : ∀ l ∈ s.links, 0 ≤ l.strength ∧ l.strength ≤ 1)
    (hσ : 0 ≤ σ ∧ σ ≤ 1) :
    ∀ l ∈ (create_link s f t ty ctx σ b).1.links,
      0 ≤ l.strength ∧ l.strength ≤ 1 := by
  intro l hl
  rcases create_link_shape l hl with ⟨l0, hl0, _, _, hστ⟩ | ⟨_, _, hστ⟩
  · rcases hστ with h | h
    · rw [h]
      exact hs l0 hl0
    · rw [h]
      exact hσ
  · rw [hστ]
    exact hσ

/-- The creation loop preserves the unit-range invariant when all its
candidates carry in-range strengths. -/
lemma createAll_range {eid : String} {D : List Candidate}
    (hD : ∀ c ∈ D, 0 ≤ c.strength ∧ c.strength ≤ 1) :
    ∀ (s : LinkStore) (n : Nat),
      (∀ l ∈ s.links, 0 ≤ l.strength ∧ l.strength ≤ 1) →
      ∀ l ∈ (createAll eid D (s, n)).1.links,
        0 ≤ l.strength ∧ l.strength ≤ 1 := by
  induction D with
  | nil => intro s n hs l hl; exact hs l hl
  | cons c D ih =>
    intro s n hs
    rw [createAll_cons]
    refine ih (fun d hd => hD d (List.mem_cons_of_mem c hd)) _ _ ?_
    exact create_link_range hs (hD c (List.mem_cons_self c D))

/-- Every detected candidate strength lies in the unit interval. -/
lemma detect_strength_range {population : List Entry} {entry : Entry}
    {m : ℚ} {c : Candidate}
    (hc : c ∈ detect_links_in_entry population entry m) :
    0 ≤ c.strength ∧ c.strength ≤ 1 := by
  rcases detect_mem_src hc with ⟨o, _, _, _, hco⟩
  exact candidatesFor_strength_range hco

/-- `auto_link_entry` preserves the unit-range invariant. -/
lemma auto_link_entry_range {population : List Entry} {s : LinkStore}
    {entry : Entry} {m : ℚ}
    (hs : ∀ l ∈ s.links, 0 ≤ l.strength ∧ l.strength ≤ 1) :
    ∀ l ∈ (auto_link_entry population s entry m).1.links,
      0 ≤ l.strength ∧ l.strength ≤ 1 :=
  createAll_range (fun _ hc => detect_strength_range hc) s 0 hs

/-- Claim C8 as amended: `create_link` performs no clamping or rejection
and stores whatever strength it is given (see the counterexample), but
every strength the detector emits lies in `[0, 1]`, so the automatic
paths preserve the unit-range invariant of the stored graph. -/
theorem claim_C8_strengthRange :
    (∀ (population : List Entry) (entry : Entry) (m : ℚ),
      ∀ c ∈ detect_links_in_entry population entry m,
        0 ≤ c.strength ∧ c.strength ≤ 1) ∧
    (∀ (population : List Entry) (s : LinkStore),
      (∀ l ∈ s.links, 0 ≤ l.strength ∧ l.strength ≤ 1) →
      (∀ (entry : Entry) (m : ℚ),
        ∀ l ∈ (auto_link_entry population s entry m).1.links,
          0 ≤ l.strength ∧ l.strength ≤ 1) ∧
      (∀ (m : ℚ),
        ∀ l ∈ (auto_link_all_entries population s m).1.links,
          0 ≤ l.strength ∧ l.strength ≤ 1)) := by
  refine ⟨fun population entry m c hc => detect_strength_range hc, ?_⟩
  intro population s hs
  refine ⟨fun entry m => auto_link_entry_range hs, fun m => ?_⟩
  unfold auto_link_all_entries
  have hfold : ∀ (todo : List Entry) (st : LinkStore) (n : Nat),
      (∀ l ∈ st.links, 0 ≤ l.strength ∧ l.strength ≤ 1) →
      ∀ l ∈ (todo.foldl (fun acc e =>
          ((auto_link_entry population acc.1 e m).1,
            acc.2 + (auto_link_entry population acc.1 e m).2)) (st, n)).1.links,
        0 ≤ l.strength ∧ l.strength ≤ 1 := by
    intro todo
    induction todo with
    | nil => intro st n hst l hl; exact hst l hl
    | cons e todo ih =>
      intro st n hst
      exact ih _ _ (auto_link_entry_range hst)
  exact hfold population s 0 hs

/-- Witness for C8: the link auto-created on `popST` has strength in the
unit interval. -/
theorem claim_C8_witness : 0 ≤ linkST.strength ∧ linkST.strength ≤ 1 :=
  (claim_C8_strengthRange.2 popST store0 (by decide)).1 eS (1/2) linkST
    (by with_unfolding_all decide)

/-! ## Lemmas tracking one `(from, to)` pair through the creation loop -/

/-- Mapping a function that fixes every element the filter keeps, and
keeps dropped elements dropped, does not change the filter's output. -/
lemma filter_map_invariant {α : Type} {l : List α} {f : α → α}
    {p : α → Bool}
    (hf : ∀ x ∈ l, f x = x ∨ (p x = false ∧ p (f x) = false)) :
    (l.map f).filter p = l.filter p := by
  induction l with
  | nil => rfl
  | cons a l ih =>
    have hrest : ∀ x ∈ l, f x = x ∨ (p x = false ∧ p (f x) = false) :=
      fun x hx => hf x (List.mem_cons_of_mem a hx)
    simp only [List.map_cons, List.filter_cons]
    rcases hf a (List.mem_cons_self a l) with h | ⟨h1, h2⟩
    · rw [h, ih hrest]
    · rw [h1, h2, ih hrest]
      simp

/-- A `create_link` call toward a target other than `bid` leaves the
stored `(eid, bid)` rows untouched. -/
lemma create_link_filter_other {s : LinkStore} (hWF : WF s)
    {f tt : String} {ty : LinkType} {ctx : Option (List Char)} {σ : ℚ}
    {b : Bool} {eid bid : String} (hne : tt ≠ bid) :
    ((create_link s f tt ty ctx σ b).1.links.filter fun l =>
        decide (l.from_entry_id = eid ∧ l.to_entry_id = bid)) =
      s.links.filter fun l =>
        decide (l.from_entry_id = eid ∧ l.to_entry_id = bid) := by
  cases hfind : findExisting s f tt ty with
  | some e =>
    have hkey := findExisting_key hfind
    by_cases hlt : e.strength < σ
    · rw [create_link_update hfind hlt]
      apply filter_map_invariant
      intro l hl
      by_cases hid : l.id = e.id
      · have hle : l = e := eq_of_id_eq hWF.2 hl (findExisting_mem hfind) hid
        refine Or.inr ⟨?_, ?_⟩
        · rw [hle]
          simp [hkey.2.1, hne]
        · rw [if_pos hid]
          simp [hkey.2.1, hne]
      · rw [if_neg hid]
        exact Or.inl rfl
    · rw [create_link_noop hfind hlt]
  | none =>
    rw [create_link_new hfind]
    rw [List.filter_append]
    have hnew : ([(⟨s.nextId, f, tt, ty, σ, ctx, s.nextId, b⟩ :
        EntryLink)].filter fun l =>
          decide (l.from_entry_id = eid ∧ l.to_entry_id = bid)) = [] := by
      simp [hne]
    rw [hnew, List.append_nil]

/-- A `create_link` call keyed `(eid, bid)` on a store holding no
`(eid, bid)` row creates exactly one, carrying the given type, strength,
context and automatic flag. -/
lemma create_link_filter_hit {s : LinkStore} {eid bid : String}
    {ty : LinkType} {ctx : Option (List Char)} {σ : ℚ} {b : Bool}
    (hempty : (s.links.filter fun l =>
      decide (l.from_entry_id = eid ∧ l.to_entry_id = bid)) = []) :
    ((create_link s eid bid ty ctx σ b).1.links.filter fun l =>
        decide (l.from_entry_id = eid ∧ l.to_entry_id = bid)) =
      [⟨s.nextId, eid, bid, ty, σ, ctx, s.nextId, b⟩] := by
  have hfind : findExisting s eid bid ty = none := by
    unfold findExisting
    rw [List.find?_eq_none]
    intro l hl hkeyl
    simp only [decide_eq_true_eq] at hkeyl
    have hmem : l ∈ s.links.filter fun l =>
        decide (l.from_entry_id = eid ∧ l.to_entry_id = bid) :=
      List.mem_filter.2 ⟨hl, by simp [hkeyl.1, hkeyl.2.1]⟩
    rw [hempty] at hmem
    simp at hmem
  rw [create_link_new hfind, List.filter_append, hempty]
  simp

/-- The creation loop splits over list concatenation. -/
lemma createAll_append {eid : String} {D1 D2 : List Candidate}
    {acc : LinkStore × Nat} :
    createAll eid (D1 ++ D2) acc = createAll eid D2 (createAll eid D1 acc) :=
  List.foldl_append _ _ _ _

/-- Unfolding one step of the creation loop at an arbitrary accumulator. -/
lemma createAll_cons2 {eid : String} {c : Candidate} {D : List Candidate}
    {acc : LinkStore × Nat} :
    createAll eid (c :: D) acc =
      createAll eid D
        ((create_link acc.1 eid c.to_entry_id c.link_type c.context
            c.strength true).1,
          acc.2 + if (create_link acc.1 eid c.to_entry_id c.link_type
              c.context c.strength true).2.isSome then 1 else 0) := rfl

/-- A creation loop none of whose candidates target `bid` leaves the
stored `(eid, bid)` rows untouched. -/
lemma createAll_filter_other {eid bid : String} {D : List Candidate}
    (hD : ∀ c ∈ D, c.to_entry_id ≠ bid) :
    ∀ (s : LinkStore) (n : Nat), WF s →
      ((createAll eid D (s, n)).1.links.filter fun l =>
          decide (l.from_entry_id = eid ∧ l.to_entry_id = bid)) =
        s.links.filter fun l =>
          decide (l.from_entry_id = eid ∧ l.to_entry_id = bid) := by
  induction D with
  | nil => intro s n _; rfl
  | cons c D ih =>
    intro s n hWF
    rw [createAll_cons]
    rw [ih (fun d hd => hD d (List.mem_cons_of_mem c hd)) _ _
      (create_link_WF hWF)]
    exact create_link_filter_other hWF (hD c (List.mem_cons_self c D))

/-- The detector's output has pairwise distinct target ids. -/
lemma detect_keysNodup {population : List Entry} {entry : Entry} {m : ℚ} :
    ((detect_links_in_entry population entry m).map
      fun d => d.to_entry_id).Nodup := by
  unfold detect_links_in_entry
  exact dedupByTarget_keysNodup

/-! ## Claim theorem C4 -/

/-- Claim C4: when the subject `A` has both a title-mention candidate
(strength 0.8) and a shared-tag candidate (strength at most 0.7) toward
the same entry `B` in one detection pass, `auto_link_entry` creates
exactly one `A → B` edge, and that edge carries the title-mention signal:
strength 0.8, type `references`, automatic. -/
theorem claim_C4_dedupHighestWins :
    ∀ (population : List Entry) (s : LinkStore) (A B : Entry) (m : ℚ),
      (population.map fun e => e.id).Nodup →
      B ∈ population → B.id ≠ A.id → WF s →
      containsSub (subjectText A) (lowerChars B.title) = true →
      A.tags ≠ [] → B.tags ≠ [] → 2 ≤ (sharedTagsOf A B).length →
      m ≤ 4/5 →
      (s.links.filter fun l =>
        decide (l.from_entry_id = A.id ∧ l.to_entry_id = B.id)) = [] →
      ∃ lk, ((auto_link_entry population s A m).1.links.filter fun l =>
          decide (l.from_entry_id = A.id ∧ l.to_entry_id = B.id)) = [lk] ∧
        lk.strength = 4/5 ∧ lk.link_type = LinkType.references ∧
        lk.is_automatic = true := by
  intro population s A B m hnodup hB hne hWF htitle htagsA htagsB hshared
    hmin hempty
  rcases detect_title_unique hnodup hB hne htitle hmin with ⟨hmem, huniq⟩
  rcases List.append_of_mem hmem with ⟨D1, D2, hsplit⟩
  have hkeysD : ((D1 ++ titleCandidate A B :: D2).map
      fun d => d.to_entry_id).Nodup := by
    rw [← hsplit]
    exact detect_keysNodup
  rw [List.map_append, List.map_cons] at hkeysD
  rcases List.nodup_append.1 hkeysD with ⟨nd1, nd2, disj⟩
  have ht2 : (titleCandidate A B).to_entry_id ∉
      D2.map fun d => d.to_entry_id := (List.nodup_cons.1 nd2).1
  have ht1 : (titleCandidate A B).to_entry_id ∉
      D1.map fun d => d.to_entry_id :=
    fun h => disj h (List.mem_cons_self _ _)
  have hD1 : ∀ c ∈ D1, c.to_entry_id ≠ B.id := by
    intro c hc heq
    exact ht1 (List.mem_map.2 ⟨c, hc, heq⟩)
  have hD2 : ∀ c ∈ D2, c.to_entry_id ≠ B.id := by
    intro c hc heq
    exact ht2 (List.mem_map.2 ⟨c, hc, heq⟩)
  unfold auto_link_entry
  rw [hsplit, createAll_append, createAll_cons2]
  have hWF1 : WF (createAll A.id D1 (s, 0)).1 := createAll_WF s 0 hWF
  have hfilter1 : ((createAll A.id D1 (s, 0)).1.links.filter fun l =>
      decide (l.from_entry_id = A.id ∧ l.to_entry_id = B.id)) = [] := by
    rw [createAll_filter_other hD1 s 0 hWF]
    exact hempty
  have ht_to : (titleCandidate A B).to_entry_id = B.id := rfl
  have ht_ty : (titleCandidate A B).link_type = LinkType.references := rfl
  have ht_str : (titleCandidate A B).strength = 4/5 := rfl
  rw [ht_to, ht_ty, ht_str]
  rw [createAll_filter_other hD2 _ _ (create_link_WF hWF1)]
  rw [create_link_filter_hit hfilter1]
  exact ⟨_, rfl, rfl, rfl, rfl⟩

/-- Witness for C4: on `pop4` the subject has a title-mention candidate
and a shared-tag candidate toward `eB4`, and exactly one automatic edge
of strength 0.8 and type `references` is created. -/
theorem claim_C4_witness :
    ∃ lk, ((auto_link_entry pop4 store0 eA4 (1/2)).1.links.filter fun l =>
        decide (l.from_entry_id = eA4.id ∧ l.to_entry_id = eB4.id)) = [lk] ∧
      lk.strength = 4/5 ∧ lk.link_type = LinkType.references ∧
      lk.is_automatic = true :=
  claim_C4_dedupHighestWins pop4 store0 eA4 eB4 (1/2) (by decide)
    (by decide) (by decide) (by refine ⟨?_, ?_⟩ <;> simp [store0, WF])
    (by decide) (by decide) (by decide) (by decide)
    (by with_unfolding_all decide) (by decide)

/-! ## Lemmas about score accumulation -/

/-- A key's total over a concatenation splits. -/
lemma keyTotal_append {l1 l2 : List (String × ℚ)} {k : String} :
    keyTotal (l1 ++ l2) k = keyTotal l1 k + keyTotal l2 k := by
  unfold keyTotal
  rw [List.filter_append, List.map_append, List.sum_append]

/-- A key's total over a list built by mapping key and value out of a
source list. -/
lemma keyTotal_map {α : Type} (L : List α) (key : α → String) (val : α → ℚ)
    (k : String) :
    keyTotal (L.map fun a => (key a, val a)) k =
      ((L.filter fun a => decide (key a = k)).map val).sum := by
  induction L with
  | nil => rfl
  | cons a L ih =>
    unfold keyTotal at ih ⊢
    by_cases h : key a = k <;>
      simp [List.filter_cons, h, ih]

/-- A key's total over a flattened list of contribution blocks. -/
lemma keyTotal_flatMap {α : Type} (L : List α)
    (f : α → List (String × ℚ)) (k : String) :
    keyTotal (L.flatMap f) k = (L.map fun a => keyTotal (f a) k).sum := by
  induction L with
  | nil => rfl
  | cons a L ih =>
    rw [List.flatMap_cons, keyTotal_append, List.map_cons, List.sum_cons,
      ih]

/-- `bump` keeps the keys pairwise distinct. -/
lemma bump_keysNodup {m : List (String × ℚ)} {k : String} {v : ℚ}
    (h : (m.map fun p => p.1).Nodup) :
    ((bump m k v).map fun p => p.1).Nodup := by
  unfold bump
  by_cases ha : m.any (fun p => decide (p.1 = k)) = true
  · rw [if_pos ha]
    have : ((m.map fun p => if p.1 = k then (p.1, p.2 + v) else p).map
        fun p => p.1) = m.map fun p => p.1 := by
      rw [List.map_map]
      apply List.map_congr_left
      intro p _
      by_cases hp : p.1 = k <;> simp [hp]
    rw [this]
    exact h
  · rw [if_neg ha]
    rw [List.map_append]
    refine List.Nodup.append h (by simp) ?_
    intro x hx hx2
    simp at hx2
    rcases List.mem_map.1 hx with ⟨p, hp, rfl⟩
    rw [List.any_eq_true] at ha
    exact ha ⟨p, hp, by simp [hx2]⟩

/-- The in-place update of the bumped key, on the lookup. -/
lemma scoreLookup_map_bumpKey_same (m : List (String × ℚ)) (k : String)
    (v : ℚ) :
    scoreLookup (m.map fun p => if p.1 = k then (p.1, p.2 + v) else p) k =
      (scoreLookup m k).map fun w => w + v := by
  induction m with
  | nil => rfl
  | cons q m ih =>
    rw [List.map_cons]
    by_cases hq : q.1 = k
    · rw [if_pos hq]
      unfold scoreLookup
      rw [List.find?_cons_of_pos _ (by simp [hq]),
        List.find?_cons_of_pos _ (by simp [hq])]
      simp
    · rw [if_neg hq]
      unfold scoreLookup
      rw [List.find?_cons_of_neg _ (by simp [hq]),
        List.find?_cons_of_neg _ (by simp [hq])]
      exact ih

/-- The in-place update of the bumped key preserves other lookups. -/
lemma scoreLookup_map_bumpKey_other (m : List (String × ℚ))
    (k k2 : String) (v : ℚ) (hk : k2 ≠ k) :
    scoreLookup (m.map fun p => if p.1 = k then (p.1, p.2 + v) else p) k2 =
      scoreLookup m k2 := by
  induction m with
  | nil => rfl
  | cons q m ih =>
    rw [List.map_cons]
    by_cases hq2 : q.1 = k2
    · have hqk : ¬ q.1 = k := fun h => hk (by rw [← hq2, h])
      rw [if_neg hqk]
      unfold scoreLookup
      rw [List.find?_cons_of_pos _ (by simp [hq2]),
        List.find?_cons_of_pos _ (by simp [hq2])]
    · have hkey : (if q.1 = k then (q.1, q.2 + v) else q).1 = q.1 := by
        by_cases hq : q.1 = k <;> simp [hq]
      unfold scoreLookup
      rw [List.find?_cons_of_neg _ (by simp [hkey, hq2]),
        List.find?_cons_of_neg _ (by simp [hq2])]
      exact ih

/-- A key that never occurs looks up to nothing. -/
lemma scoreLookup_eq_none {m : List (String × ℚ)} {k : String}
    (ha : ¬ m.any (fun p => decide (p.1 = k)) = true) :
    scoreLookup m k = none := by
  unfold scoreLookup
  rw [List.find?_eq_none.2]
  · rfl
  · intro p hp hpk
    rw [List.any_eq_true] at ha
    exact ha ⟨p, hp, hpk⟩

/-- Looking up the bumped key returns the old value plus the increment,
or the increment alone for a fresh key. -/
lemma scoreLookup_bump_same {m : List (String × ℚ)} {k : String} {v : ℚ} :
    scoreLookup (bump m k v) k =
      some (match scoreLookup m k with
        | some w => w + v
        | none => v) := by
  unfold bump
  by_cases ha : m.any (fun p => decide (p.1 = k)) = true
  · rw [if_pos ha]
    rw [List.any_eq_true] at ha
    rcases ha with ⟨p, hp, hpk⟩
    simp only [decide_eq_true_eq] at hpk
    have hsome : ∃ w, scoreLookup m k = some w := by
      cases hfind : m.find? fun p => decide (p.1 = k) with
      | none =>
        rw [List.find?_eq_none] at hfind
        exact absurd (by simp [hpk]) (hfind p hp)
      | some q => exact ⟨q.2, by unfold scoreLookup; rw [hfind]; rfl⟩
    rcases hsome with ⟨w, hw⟩
    rw [scoreLookup_map_bumpKey_same, hw]
    rfl
  · rw [if_neg ha]
    rw [scoreLookup_eq_none ha]
    unfold scoreLookup
    rw [List.find?_append, List.find?_eq_none.2]
    · simp
    · intro p hp hpk
      rw [List.any_eq_true] at ha
      exact ha ⟨p, hp, hpk⟩

/-- Bumping one key does not change any other key's lookup. -/
lemma scoreLookup_bump_other {m : List (String × ℚ)} {k k2 : String}
    {v : ℚ} (hk : k2 ≠ k) :
    scoreLookup (bump m k v) k2 = scoreLookup m k2 := by
  unfold bump
  by_cases ha : m.any (fun p => decide (p.1 = k)) = true
  · rw [if_pos ha]
    exact scoreLookup_map_bumpKey_other m k k2 v hk
  · rw [if_neg ha]
    unfold scoreLookup
    rw [List.find?_append]
    have hone : ([(k, v)].find? fun p => decide (p.1 = k2)) = none := by
      simp [Ne.symm hk]
    rw [hone]
    cases m.find? fun p => decide (p.1 = k2) <;> rfl

/-- Keys stay pairwise distinct through the accumulation fold. -/
lemma accumulate_keysNodup (l : List (String × ℚ)) :
    ∀ (init : List (String × ℚ)), ((init.map fun p => p.1).Nodup) →
      ((l.foldl (fun m p => bump m p.1 p.2) init).map fun p => p.1).Nodup := by
  induction l with
  | nil => intro init h; exact h
  | cons p l ih =>
    intro init h
    exact ih _ (bump_keysNodup h)

/-- The accumulation fold computes, at every key, the initial value plus
the sum of that key's contributions — or exactly that sum for a fresh
key that occurs, and nothing for a key that never occurs. -/
lemma accumulate_lookup (l : List (String × ℚ)) :
    ∀ (init : List (String × ℚ)) (k : String),
      (∀ w, scoreLookup init k = some w →
        scoreLookup (l.foldl (fun m p => bump m p.1 p.2) init) k =
          some (w + keyTotal l k)) ∧
      (scoreLookup init k = none →
        scoreLookup (l.foldl (fun m p => bump m p.1 p.2) init) k =
          if keyOccurs l k then some (keyTotal l k) else none) := by
  induction l with
  | nil =>
    intro init k
    constructor
    · intro w hw
      rw [List.foldl_nil, hw]
      unfold keyTotal
      simp
    · intro hw
      rw [List.foldl_nil, hw]
      unfold keyOccurs
      simp
  | cons p l ih =>
    intro init k
    rw [List.foldl_cons]
    by_cases hk : p.1 = k
    · have htot : keyTotal (p :: l) k = p.2 + keyTotal l k := by
        unfold keyTotal
        rw [List.filter_cons, if_pos (by simp [hk])]
        simp
      have hocc : keyOccurs (p :: l) k = true := by
        unfold keyOccurs
        simp [List.any_cons, hk]
      constructor
      · intro w hw
        have hb : scoreLookup (bump init p.1 p.2) k = some (w + p.2) := by
          rw [← hk] at hw ⊢
          rw [scoreLookup_bump_same, hw]
        rw [(ih _ k).1 _ hb, htot, add_assoc]
      · intro hw
        have hb : scoreLookup (bump init p.1 p.2) k = some p.2 := by
          rw [← hk] at hw ⊢
          rw [scoreLookup_bump_same, hw]
        rw [(ih _ k).1 _ hb, htot, hocc]
        simp
    · have htot : keyTotal (p :: l) k = keyTotal l k := by
        unfold keyTotal
        rw [List.filter_cons, if_neg (by simp [hk])]
      have hocc : keyOccurs (p :: l) k = keyOccurs l k := by
        unfold keyOccurs
        simp [List.any_cons, hk]
      have hb : scoreLookup (bump init p.1 p.2) k = scoreLookup init k :=
        scoreLookup_bump_other (fun h => hk h.symm)
      constructor
      · intro w hw
        rw [(ih _ k).1 w (by rw [hb]; exact hw), htot]
      · intro hw
        rw [(ih _ k).2 (by rw [hb]; exact hw), htot, hocc]

/-- With pairwise distinct keys, map membership is lookup. -/
lemma mem_iff_scoreLookup {m : List (String × ℚ)}
    (h : (m.map fun p => p.1).Nodup) {k : String} {v : ℚ} :
    (k, v) ∈ m ↔ scoreLookup m k = some v := by
  constructor
  · intro hmem
    cases hfind : m.find? fun p => decide (p.1 = k) with
    | none =>
      rw [List.find?_eq_none] at hfind
      exact absurd (by simp) (hfind (k, v) hmem)
    | some q =>
      have hq : q ∈ m := List.mem_of_find?_eq_some hfind
      have hqk : q.1 = k := by simpa using List.find?_some hfind
      have hqe : q = (k, v) :=
        List.inj_on_of_nodup_map h hq hmem (by simp [hqk])
      unfold scoreLookup
      rw [hfind, hqe]
      rfl
  · intro hl
    unfold scoreLookup at hl
    cases hfind : m.find? fun p => decide (p.1 = k) with
    | none =>
      rw [hfind] at hl
      simp at hl
    | some q =>
      rw [hfind] at hl
      have hq : q ∈ m := List.mem_of_find?_eq_some hfind
      have hqk : q.1 = k := by simpa using List.find?_some hfind
      have hqv : q.2 = v := by simpa using hl
      have hqe : q = (k, v) := by
        cases q
        simp only [] at hqk hqv
        rw [hqk, hqv]
      rw [← hqe]
      exact hq

/-- The relevance score map has pairwise distinct keys. -/
lemma relatedScores_keysNodup {s : LinkStore} {eid : String} {ind : Bool} :
    ((relatedScores s eid ind).map fun p => p.1).Nodup :=
  accumulate_keysNodup _ [] (by simp)

/-- Every entry of the relevance score map carries the sum of the
contributions made to its key, and its key received at least one
contribution. -/
lemma relatedScores_lookup {s : LinkStore} {eid : String} {ind : Bool}
    {X : String} {v : ℚ} (hmem : (X, v) ∈ relatedScores s eid ind) :
    keyOccurs (relContribs s eid ind) X = true ∧
    v = keyTotal (relContribs s eid ind) X := by
  have hl := (mem_iff_scoreLookup relatedScores_keysNodup).1 hmem
  unfold relatedScores at hl
  rw [(accumulate_lookup (relContribs s eid ind) [] X).2 rfl] at hl
  by_cases hocc : keyOccurs (relContribs s eid ind) X = true
  · rw [if_pos hocc] at hl
    exact ⟨hocc, by simpa using hl.symm⟩
  · rw [if_neg hocc] at hl
    exact absurd hl (by simp)

/-- The sum of the contributions at one key is the specification's
scoring formula. -/
lemma keyTotal_relContribs (s : LinkStore) (eid X : String) :
    keyTotal (relContribs s eid true) X = specScore s eid X := by
  unfold relContribs
  rw [if_pos rfl, keyTotal_append, keyTotal_append]
  unfold outContribs inContribs indirectContribs specScore
  rw [keyTotal_map, keyTotal_map, keyTotal_flatMap]
  congr 1
  congr 1
  apply List.map_congr_left
  intro l _
  rw [keyTotal_map]

/-! ## Claim theorem C3 -/

/-- Claim C3: every accumulated relevance score is exactly the
specification's additive formula — outgoing strength times 1.0, incoming
strength times 0.8, two-hop products times 0.3, summed across
contributing paths — and on the concrete scenario A→B (0.9), B→C (0.5)
the result of `find_related_entries(A)` with indirect propagation is
exactly `[(B, 0.9), (C, 0.135)]` in that order. -/
theorem claim_C3_relevanceScores :
    (∀ (s : LinkStore) (eid X : String) (v : ℚ),
      (X, v) ∈ relatedScores s eid true → v = specScore s eid X) ∧
    (find_related_entries popABC sABC eA 10 true).map
        (fun p => (p.1.id, p.2)) = [("B", 9/10), ("C", 27/200)] := by
  constructor
  · intro s eid X v hmem
    rcases relatedScores_lookup hmem with ⟨_, hv⟩
    rw [hv, keyTotal_relContribs]
  · with_unfolding_all decide

/-- Witness for C3: the score accumulated for B in the concrete scenario
equals the specification formula's value there. -/
theorem claim_C3_witness :
    (9:ℚ)/10 = specScore sABC "A" "B" :=
  claim_C3_relevanceScores.1 sABC "A" "B" (9/10)
    (by with_unfolding_all decide)

/-! ## Claim theorems C5 -/

/-- Claim C5, counterexample: with a stored A→B edge of strength 0 —
`create_link` accepts strength 0 — `find_related_entries(A)` returns the
pair `(B, 0)`, an entry whose accumulated relevance score is zero. -/
theorem claim_C5_cex :
    ¬ (∀ p ∈ find_related_entries popABC sZero eA 10 true, 0 < p.2) := by
  with_unfolding_all decide

/-- Stable insertion contains exactly the inserted element and the old
ones. -/
lemma mem_insBy {α : Type} {gt : α → α → Bool} {x y : α} {l : List α} :
    x ∈ insBy gt y l ↔ x = y ∨ x ∈ l := by
  induction l with
  | nil => simp [insBy]
  | cons z l ih =>
    unfold insBy
    by_cases h : gt y z = true
    · rw [if_pos h]
      simp
    · rw [if_neg h]
      rw [List.mem_cons, ih, List.mem_cons]
      tauto

/-- The stable sort is a permutation at the level of membership. -/
lemma mem_sortBy {α : Type} {gt : α → α → Bool} {l : List α} {x : α} :
    x ∈ sortBy gt l ↔ x ∈ l := by
  unfold sortBy
  suffices h : ∀ acc, x ∈ l.foldl (fun acc x => insBy gt x acc) acc ↔
      x ∈ acc ∨ x ∈ l by
    rw [h]
    simp
  induction l with
  | nil => intro acc; simp
  | cons y l ih =>
    intro acc
    rw [List.foldl_cons, ih, mem_insBy, List.mem_cons]
    tauto

/-- Every pair returned by `find_related_entries` carries a score from
the accumulated score map. -/
lemma find_related_mem {population : List Entry} {s : LinkStore}
    {entry : Entry} {maxr : Nat} {ind : Bool} {p : Entry × ℚ}
    (hp : p ∈ find_related_entries population s entry maxr ind) :
    ∃ q ∈ relatedScores s entry.id ind, p.2 = q.2 := by
  unfold find_related_entries at hp
  rcases List.mem_filterMap.1 hp with ⟨q, hq, hmap⟩
  rcases Option.map_eq_some'.1 hmap with ⟨e, _, hep⟩
  refine ⟨q, ?_, by rw [← hep]⟩
  exact mem_sortBy.1 (List.mem_of_mem_take hq)

/-- Every contribution is strictly positive when every stored strength
is. -/
lemma relContribs_pos {s : LinkStore} {eid : String} {ind : Bool}
    (hs : ∀ l ∈ s.links, 0 < l.strength) :
    ∀ pr ∈ relContribs s eid ind, 0 < pr.2 := by
  intro pr hpr
  unfold relContribs at hpr
  rcases List.mem_append.1 hpr with h12 | h3
  · rcases List.mem_append.1 h12 with h1 | h2
    · rcases List.mem_map.1 h1 with ⟨l, hl, rfl⟩
      have := hs l (List.mem_filter.1 hl).1
      simpa using this
    · rcases List.mem_map.1 h2 with ⟨l, hl, rfl⟩
      have := hs l (List.mem_filter.1 hl).1
      have h45 : (0:ℚ) < 4/5 := by norm_num
      exact mul_pos this h45
  · rcases ind with _ | _
    · simp at h3
    · simp only [if_pos] at h3
      rcases List.mem_flatMap.1 h3 with ⟨l, hl, hil⟩
      rcases List.mem_map.1 hil with ⟨il, hil2, rfl⟩
      have h1 := hs l (List.mem_filter.1 hl).1
      have h2 := hs il (List.mem_filter.1 (List.mem_filter.1 hil2).1).1
      have h3 : (0:ℚ) < 3/10 := by norm_num
      exact mul_pos (mul_pos h1 h2) h3

/-- A key that occurs in an all-positive contribution list accumulates a
strictly positive total. -/
lemma keyTotal_pos {l : List (String × ℚ)} {k : String}
    (hl : ∀ pr ∈ l, 0 < pr.2) (hocc : keyOccurs l k = true) :
    0 < keyTotal l k := by
  unfold keyOccurs at hocc
  rw [List.any_eq_true] at hocc
  rcases hocc with ⟨pr, hpr, hprk⟩
  have hmem : pr ∈ l.filter fun p => decide (p.1 = k) :=
    List.mem_filter.2 ⟨hpr, hprk⟩
  unfold keyTotal
  apply List.sum_pos
  · intro x hx
    rcases List.mem_map.1 hx with ⟨q, hq, rfl⟩
    exact hl q (List.mem_filter.1 hq).1
  · intro hnil
    rw [List.map_eq_nil_iff] at hnil
    rw [hnil] at hmem
    simp at hmem

/-- Claim C5 as amended: an entry enters the result only through a
contributing edge path, so when every stored edge strength is strictly
positive, every score `find_related_entries` returns is strictly
positive (a zero-strength edge, which `create_link` accepts, yields a
returned entry with score zero — see the counterexample). -/
theorem claim_C5_positiveScores :
    ∀ (population : List Entry) (s : LinkStore) (entry : Entry)
      (maxr : Nat) (ind : Bool),
      (∀ l ∈ s.links, 0 < l.strength) →
      ∀ p ∈ find_related_entries population s entry maxr ind, 0 < p.2 := by
  intro population s entry maxr ind hs p hp
  rcases find_related_mem hp with ⟨q, hq, hpq⟩
  have hq2 : (q.1, q.2) ∈ relatedScores s entry.id ind := hq
  rcases relatedScores_lookup hq2 with ⟨hocc, hv⟩
  rw [hpq, hv]
  exact keyTotal_pos (relContribs_pos hs) hocc

/-- Witness for C5: on the all-positive store of the concrete scenario
the returned pair for B has a strictly positive score. -/
theorem claim_C5_witness : (0:ℚ) < ((eB, (9:ℚ)/10) : Entry × ℚ).2 :=
  claim_C5_positiveScores popABC sABC eA 10 true
    (by with_unfolding_all decide) (eB, 9/10)
    (by with_unfolding_all decide)

/-! ## Lemmas about the cluster graph -/

/-- `dedupFirst` keeps exactly the elements of its input. -/
lemma dedupFirst_fold_mem {l : List String} :
    ∀ {acc : List String} {x : String},
      (x ∈ l.foldl (fun acc x => if x ∈ acc then acc else acc ++ [x]) acc)
        ↔ x ∈ acc ∨ x ∈ l := by
  induction l with
  | nil => intro acc x; simp
  | cons y l ih =>
    intro acc x
    rw [List.foldl_cons, ih]
    by_cases h : y ∈ acc
    · rw [if_pos h, List.mem_cons]
      constructor
      · rintro (h1 | h1)
        · exact Or.inl h1
        · exact Or.inr (Or.inr h1)
      · rintro (h1 | h1 | h1)
        · exact Or.inl h1
        · rw [h1]
          exact Or.inl h
        · exact Or.inr h1
    · rw [if_neg h, List.mem_cons]
      rw [List.mem_append]
      constructor
      · rintro ((h1 | h1) | h1)
        · exact Or.inl h1
        · simp at h1
          exact Or.inr (Or.inl h1)
        · exact Or.inr (Or.inr h1)
      · rintro (h1 | h1 | h1)
        · exact Or.inl (Or.inl h1)
        · exact Or.inl (Or.inr (by simp [h1]))
        · exact Or.inr h1

/-- Membership in `dedupFirst`. -/
lemma dedupFirst_mem {l : List String} {x : String} :
    x ∈ dedupFirst l ↔ x ∈ l := by
  unfold dedupFirst
  rw [dedupFirst_fold_mem]
  simp

/-- `dedupFirst` outputs a duplicate-free list. -/
lemma dedupFirst_nodup {l : List String} : (dedupFirst l).Nodup := by
  unfold dedupFirst
  suffices h : ∀ acc : List String, acc.Nodup →
      (l.foldl (fun acc x => if x ∈ acc then acc else acc ++ [x]) acc).Nodup by
    exact h [] (by simp)
  induction l with
  | nil => intro acc h; exact h
  | cons y l ih =>
    intro acc h
    rw [List.foldl_cons]
    by_cases hy : y ∈ acc
    · rw [if_pos hy]
      exact ih acc h
    · rw [if_neg hy]
      exact ih _ (List.Nodup.append h (by simp) (by
        intro a ha ha2
        simp at ha2
        rw [ha2] at ha
        exact hy ha))

/-- The nodes of the cluster graph are the endpoints of the links. -/
lemma nodesOf_mem {s : LinkStore} {x : String} :
    x ∈ nodesOf s ↔
      ∃ l ∈ s.links, x = l.from_entry_id ∨ x = l.to_entry_id := by
  unfold nodesOf
  rw [dedupFirst_mem, List.mem_flatMap]
  constructor
  · rintro ⟨l, hl, hx⟩
    simp at hx
    exact ⟨l, hl, hx⟩
  · rintro ⟨l, hl, hx⟩
    exact ⟨l, hl, by simp [hx]⟩

/-- The nodes list is duplicate-free. -/
lemma nodesOf_nodup {s : LinkStore} : (nodesOf s).Nodup := dedupFirst_nodup

/-- Undirected adjacency is symmetric. -/
lemma adjB_symm (s : LinkStore) (a b : String) :
    adjB s a b = adjB s b a := by
  unfold adjB
  congr 1
  funext l
  apply decide_eq_decide.2
  tauto

/-- Undirected adjacency is symmetric, at the relation level. -/
lemma adjRel_symm {s : LinkStore} {a b : String} (h : adjRel s a b) :
    adjRel s b a := by
  unfold adjRel at h ⊢
  rw [adjB_symm]
  exact h

/-- Both endpoints of an adjacency are nodes. -/
lemma adjRel_mem_nodes {s : LinkStore} {a b : String} (h : adjRel s a b) :
    a ∈ nodesOf s ∧ b ∈ nodesOf s := by
  unfold adjRel adjB at h
  rw [List.any_eq_true] at h
  rcases h with ⟨l, hl, hcond⟩
  simp only [decide_eq_true_eq] at hcond
  rcases hcond with ⟨hf, ht⟩ | ⟨hf, ht⟩
  · exact ⟨nodesOf_mem.2 ⟨l, hl, Or.inl hf.symm⟩,
      nodesOf_mem.2 ⟨l, hl, Or.inr ht.symm⟩⟩
  · exact ⟨nodesOf_mem.2 ⟨l, hl, Or.inr ht.symm⟩,
      nodesOf_mem.2 ⟨l, hl, Or.inl hf.symm⟩⟩

/-- Membership in the neighbour list is adjacency. -/
lemma mem_nbrs {s : LinkStore} {a b : String} :
    b ∈ nbrs s a ↔ adjRel s a b := by
  unfold nbrs
  rw [List.mem_filter]
  constructor
  · rintro ⟨_, h⟩
    exact h
  · intro h
    exact ⟨(adjRel_mem_nodes h).2, h⟩

/-- Undirected reachability is symmetric. -/
lemma reach_symm {s : LinkStore} {a b : String} (h : reach s a b) :
    reach s b a :=
  Relation.ReflTransGen.symmetric (fun _ _ hxy => adjRel_symm hxy) h

/-- A set of nodes closed under adjacency is closed under
reachability. -/
lemma reach_closed (s : LinkStore) {V : List String}
    (hV : ∀ v ∈ V, ∀ w, adjRel s v w → w ∈ V) {v x : String}
    (hv : v ∈ V) (hr : reach s v x) : x ∈ V := by
  induction hr with
  | refl => exact hv
  | tail hreach hstep ih => exact hV _ ih _ hstep

/-- Walking from an element of a set closed under adjacency up to the
stack: the walk either stays in the set or passes through the stack. -/
lemma stack_closure (s : LinkStore) {V S : List String}
    (hinv : ∀ v ∈ V, ∀ w, adjRel s v w → w ∈ V ∨ w ∈ S) {n x : String}
    (hreach : reach s n x) :
    n ∈ V → x ∈ V ∨ ∃ r ∈ S, reach s r x := by
  induction hreach using Relation.ReflTransGen.head_induction_on with
  | refl => intro h; exact Or.inl h
  | head hstep htail ih =>
    intro hn
    rcases hinv _ hn _ hstep with h | h
    · exact ih h
    · exact Or.inr ⟨_, h, htail⟩

/-- The traversal only appends to the visited list. -/
lemma dfs_append (s : LinkStore) :
    ∀ (fuel : Nat) (V S : List String),
      ∃ Δ, dfsAux s fuel V S = V ++ Δ := by
  intro fuel
  induction fuel with
  | zero =>
    intro V S
    exact ⟨[], by simp [dfsAux]⟩
  | succ fuel ih =>
    intro V S
    cases S with
    | nil => exact ⟨[], by simp [dfsAux]⟩
    | cons n S =>
      by_cases h : n ∈ V
      · rcases ih V S with ⟨Δ, hΔ⟩
        exact ⟨Δ, by simp [dfsAux, h, hΔ]⟩
      · rcases ih (V ++ [n]) (nbrs s n ++ S) with ⟨Δ, hΔ⟩
        exact ⟨n :: Δ, by simp [dfsAux, h, hΔ]⟩

/-- The traversal keeps the visited list duplicate-free. -/
lemma dfs_nodup (s : LinkStore) :
    ∀ (fuel : Nat) (V S : List String), V.Nodup →
      (dfsAux s fuel V S).Nodup := by
  intro fuel
  induction fuel with
  | zero =>
    intro V S h
    simpa [dfsAux] using h
  | succ fuel ih =>
    intro V S h
    cases S with
    | nil => simpa [dfsAux] using h
    | cons n S =>
      by_cases hn : n ∈ V
      · rw [show dfsAux s (fuel+1) V (n :: S) = dfsAux s fuel V S from by
          simp [dfsAux, hn]]
        exact ih V S h
      · rw [show dfsAux s (fuel+1) V (n :: S) =
            dfsAux s fuel (V ++ [n]) (nbrs s n ++ S) from by
          simp [dfsAux, hn]]
        refine ih _ _ (List.Nodup.append h (by simp) ?_)
        intro a ha ha2
        simp at ha2
        rw [ha2] at ha
        exact hn ha

/-- Removing a fresh node from the unvisited count. -/
lemma filter_notMem_append_singleton {l V : List String} {n : String}
    (hl : l.Nodup) (hn : n ∈ l) (hnV : n ∉ V) :
    ((l.filter fun x => decide (x ∉ V ++ [n])).length) + 1 =
      (l.filter fun x => decide (x ∉ V)).length := by
  induction l with
  | nil => simp at hn
  | cons a l ih =>
    rw [List.nodup_cons] at hl
    rcases List.mem_cons.1 hn with heq | hn2
    · subst heq
      rw [List.filter_cons, List.filter_cons]
      rw [if_neg (by simp), if_pos (by simpa using hnV)]
      have hsame : (l.filter fun x => decide (x ∉ V ++ [n])) =
          l.filter fun x => decide (x ∉ V) := by
        apply List.filter_congr
        intro x hx
        have hxn : x ≠ n := fun h => hl.1 (h ▸ hx)
        simp [List.mem_append, hxn]
      rw [hsame]
      simp
    · have han : a ≠ n := fun h => hl.1 (h ▸ hn2)
      rw [List.filter_cons, List.filter_cons]
      by_cases haV : a ∈ V
      · rw [if_neg (by simp [haV]), if_neg (by simp [haV])]
        exact ih hl.2 hn2
      · rw [if_pos (by simp [List.mem_append, haV, han]),
          if_pos (by simpa using haV)]
        have := ih hl.2 hn2
        simp only [List.length_cons]
        omega

/-- The depth-first traversal visits exactly the old visited set plus
everything reachable from the stack, provided the fuel covers the bound
and every neighbour of a visited node is visited or stacked. -/
lemma dfs_spec (s : LinkStore) :
    ∀ (fuel : Nat) (V S : List String),
      S.length + ((nodesOf s).filter fun x => decide (x ∉ V)).length *
        ((nodesOf s).length + 1) ≤ fuel →
      (∀ x ∈ S, x ∈ nodesOf s) →
      (∀ v ∈ V, ∀ w, adjRel s v w → w ∈ V ∨ w ∈ S) →
      ∀ x, x ∈ dfsAux s fuel V S ↔ x ∈ V ∨ ∃ r ∈ S, reach s r x := by
  intro fuel
  induction fuel with
  | zero =>
    intro V S hfuel hS hinv x
    have hlen : S.length = 0 := by omega
    rw [List.length_eq_zero] at hlen
    rw [hlen]
    simp [dfsAux]
  | succ fuel ih =>
    intro V S hfuel hS hinv x
    cases S with
    | nil => simp [dfsAux]
    | cons n S =>
      by_cases hn : n ∈ V
      · rw [show dfsAux s (fuel+1) V (n :: S) = dfsAux s fuel V S from by
          simp [dfsAux, hn]]
        have hfuel2 : S.length +
            ((nodesOf s).filter fun x => decide (x ∉ V)).length *
              ((nodesOf s).length + 1) ≤ fuel := by
          simp only [List.length_cons] at hfuel
          omega
        have hinv2 : ∀ v ∈ V, ∀ w, adjRel s v w → w ∈ V ∨ w ∈ S := by
          intro v hv w hw
          rcases hinv v hv w hw with h | h
          · exact Or.inl h
          · rcases List.mem_cons.1 h with rfl | h2
            · exact Or.inl hn
            · exact Or.inr h2
        rw [ih V S hfuel2 (fun y hy => hS y (List.mem_cons_of_mem n hy))
          hinv2]
        constructor
        · rintro (h | ⟨r, hr, hrx⟩)
          · exact Or.inl h
          · exact Or.inr ⟨r, List.mem_cons_of_mem n hr, hrx⟩
        · rintro (h | ⟨r, hr, hrx⟩)
          · exact Or.inl h
          · rcases List.mem_cons.1 hr with rfl | hr2
            · rcases stack_closure s hinv2 hrx hn with h2 | ⟨r2, hr2, hr2x⟩
              · exact Or.inl h2
              · exact Or.inr ⟨r2, hr2, hr2x⟩
            · exact Or.inr ⟨r, hr2, hrx⟩
      · rw [show dfsAux s (fuel+1) V (n :: S) =
            dfsAux s fuel (V ++ [n]) (nbrs s n ++ S) from by
          simp [dfsAux, hn]]
        have hnN : n ∈ nodesOf s := hS n (List.mem_cons_self n S)
        have hUdec := filter_notMem_append_singleton
          (nodesOf_nodup (s := s)) hnN hn
        have hnbrs : (nbrs s n).length ≤ (nodesOf s).length :=
          List.length_filter_le _ _
        have hfuel2 : (nbrs s n ++ S).length +
            ((nodesOf s).filter fun x => decide (x ∉ V ++ [n])).length *
              ((nodesOf s).length + 1) ≤ fuel := by
          rw [List.length_append]
          simp only [List.length_cons] at hfuel
          have h1 : ((nodesOf s).filter fun x => decide (x ∉ V)).length =
              ((nodesOf s).filter fun x =>
                decide (x ∉ V ++ [n])).length + 1 := hUdec.symm
          rw [h1] at hfuel
          have h2 : (((nodesOf s).filter fun x =>
              decide (x ∉ V ++ [n])).length + 1) *
                ((nodesOf s).length + 1) =
              ((nodesOf s).filter fun x =>
                decide (x ∉ V ++ [n])).length *
                  ((nodesOf s).length + 1) + ((nodesOf s).length + 1) := by
            ring
          rw [h2] at hfuel
          omega
        have hS2 : ∀ y ∈ nbrs s n ++ S, y ∈ nodesOf s := by
          intro y hy
          rcases List.mem_append.1 hy with h | h
          · exact (List.mem_filter.1 h).1
          · exact hS y (List.mem_cons_of_mem n h)
        have hinv2 : ∀ v ∈ V ++ [n], ∀ w, adjRel s v w →
            w ∈ V ++ [n] ∨ w ∈ nbrs s n ++ S := by
          intro v hv w hw
          rcases List.mem_append.1 hv with h | h
          · rcases hinv v h w hw with h2 | h2
            · exact Or.inl (List.mem_append_left _ h2)
            · rcases List.mem_cons.1 h2 with rfl | h3
              · exact Or.inl (List.mem_append_right _ (by simp))
              · exact Or.inr (List.mem_append_right _ h3)
          · simp at h
            rw [h] at hw
            exact Or.inr (List.mem_append_left _ (mem_nbrs.2 hw))
        rw [ih _ _ hfuel2 hS2 hinv2]
        constructor
        · rintro (h | ⟨r, hr, hrx⟩)
          · rcases List.mem_append.1 h with h1 | h1
            · exact Or.inl h1
            · simp at h1
              rw [h1]
              exact Or.inr ⟨n, List.mem_cons_self n S,
                Relation.ReflTransGen.refl⟩
          · rcases List.mem_append.1 hr with h1 | h1
            · refine Or.inr ⟨n, List.mem_cons_self n S, ?_⟩
              exact Relation.ReflTransGen.head (mem_nbrs.1 h1) hrx
            · exact Or.inr ⟨r, List.mem_cons_of_mem n h1, hrx⟩
        · rintro (h | ⟨r, hr, hrx⟩)
          · exact Or.inl (List.mem_append_left _ h)
          · rcases List.mem_cons.1 hr with rfl | h1
            · rcases Relation.ReflTransGen.cases_head hrx with rfl | ⟨c, hc, hcx⟩
              · exact Or.inl (List.mem_append_right _ (by simp))
              · exact Or.inr ⟨c, List.mem_append_left _ (mem_nbrs.2 hc), hcx⟩
            · exact Or.inr ⟨r, List.mem_append_right _ h1, hrx⟩

/-- Duplicate-free lists with the same members have the same length. -/
lemma length_eq_of_nodup_mem_iff {l1 l2 : List String} (h1 : l1.Nodup)
    (h2 : l2.Nodup) (h : ∀ x, x ∈ l1 ↔ x ∈ l2) : l1.length = l2.length :=
  ((List.perm_ext_iff_of_nodup h1 h2).2 h).length_eq

/-- One iteration of the component loop preserves the loop invariant. -/
lemma clustersStep_inv (s : LinkStore) (m : Nat) {P : List String}
    {acc : List String × List (List String)} {r : String}
    (hr : r ∈ nodesOf s) (hinv : ClustersInv s m P acc) :
    ClustersInv s m (P ++ [r]) (clustersStep s m acc r) := by
  rcases hinv with ⟨hnd, hmemV, hsound, hcomp⟩
  have hclosed : ∀ v ∈ acc.1, ∀ w, adjRel s v w → w ∈ acc.1 := by
    intro v hv w hw
    rcases (hmemV v).1 hv with ⟨p, hp, hpv⟩
    exact (hmemV w).2 ⟨p, hp, hpv.tail hw⟩
  by_cases hrv : r ∈ acc.1
  · rw [show clustersStep s m acc r = acc from by
      unfold clustersStep; rw [if_pos hrv]]
    refine ⟨hnd, ?_, hsound, ?_⟩
    · intro x
      rw [hmemV x]
      constructor
      · rintro ⟨p, hp, hpx⟩
        exact ⟨p, List.mem_append_left _ hp, hpx⟩
      · rintro ⟨p, hp, hpx⟩
        rcases List.mem_append.1 hp with hp1 | hp1
        · exact ⟨p, hp1, hpx⟩
        · simp at hp1
          rw [hp1] at hpx
          exact (hmemV x).1 (reach_closed s hclosed hrv hpx)
    · intro p hp w hwnd hwmem hwlen
      rcases List.mem_append.1 hp with hp1 | hp1
      · exact hcomp p hp1 w hwnd hwmem hwlen
      · simp at hp1
        rw [hp1] at hwmem ⊢
        rcases (hmemV r).1 hrv with ⟨p0, hp0, hp0r⟩
        have hequiv : ∀ x, reach s r x ↔ reach s p0 x := by
          intro x
          constructor
          · intro h
            exact hp0r.trans h
          · intro h
            exact (reach_symm hp0r).trans h
        rcases hcomp p0 hp0 w hwnd
          (fun x => (hwmem x).trans (hequiv x)) hwlen with ⟨c, hc, hcx⟩
        exact ⟨c, hc, fun x => (hcx x).trans (hequiv x).symm⟩
  · have hstep_eq : clustersStep s m acc r =
        (dfsAux s (dfsFuel s) acc.1 [r],
          if m ≤ ((dfsAux s (dfsFuel s) acc.1 [r]).filter fun x =>
              decide (x ∉ acc.1)).length then
            acc.2 ++ [(dfsAux s (dfsFuel s) acc.1 [r]).filter fun x =>
              decide (x ∉ acc.1)]
          else acc.2) := by
      unfold clustersStep
      rw [if_neg hrv]
    rw [hstep_eq]
    have hfuel : ([r] : List String).length +
        ((nodesOf s).filter fun x => decide (x ∉ acc.1)).length *
          ((nodesOf s).length + 1) ≤ dfsFuel s := by
      have hU : ((nodesOf s).filter fun x =>
          decide (x ∉ acc.1)).length ≤ (nodesOf s).length :=
        List.length_filter_le _ _
      unfold dfsFuel
      simp only [List.length_cons, List.length_nil]
      have := Nat.mul_le_mul_right ((nodesOf s).length + 1) hU
      omega
    have hdfs := dfs_spec s (dfsFuel s) acc.1 [r] hfuel
      (by intro y hy; simp at hy; rw [hy]; exact hr)
      (fun v hv w hw => Or.inl (hclosed v hv w hw))
    have hvis : ∀ x, x ∈ dfsAux s (dfsFuel s) acc.1 [r] ↔
        x ∈ acc.1 ∨ reach s r x := by
      intro x
      rw [hdfs x]
      simp
    have hvisnd : (dfsAux s (dfsFuel s) acc.1 [r]).Nodup :=
      dfs_nodup s _ _ _ hnd
    have hreach_not : ∀ x, reach s r x → x ∉ acc.1 := by
      intro x hx hxV
      exact hrv (reach_closed s hclosed hxV (reach_symm hx))
    have hclmem : ∀ x, (x ∈ (dfsAux s (dfsFuel s) acc.1 [r]).filter
        fun y => decide (y ∉ acc.1)) ↔ reach s r x := by
      intro x
      rw [List.mem_filter]
      constructor
      · rintro ⟨hx, hx2⟩
        simp at hx2
        rcases (hvis x).1 hx with h | h
        · exact absurd h hx2
        · exact h
      · intro h
        exact ⟨(hvis x).2 (Or.inr h), by simpa using hreach_not x h⟩
    have hclnd : ((dfsAux s (dfsFuel s) acc.1 [r]).filter
        fun y => decide (y ∉ acc.1)).Nodup := hvisnd.filter _
    refine ⟨hvisnd, ?_, ?_, ?_⟩
    · intro x
      rw [hvis x, hmemV x]
      constructor
      · rintro (⟨p, hp, hpx⟩ | h)
        · exact ⟨p, List.mem_append_left _ hp, hpx⟩
        · exact ⟨r, List.mem_append_right _ (by simp), h⟩
      · rintro ⟨p, hp, hpx⟩
        rcases List.mem_append.1 hp with hp1 | hp1
        · exact Or.inl ⟨p, hp1, hpx⟩
        · simp at hp1
          rw [hp1] at hpx
          exact Or.inr hpx
    · intro c hc
      by_cases hlen : m ≤ ((dfsAux s (dfsFuel s) acc.1 [r]).filter
          fun x => decide (x ∉ acc.1)).length
      · rw [if_pos hlen] at hc
        rcases List.mem_append.1 hc with h | h
        · exact hsound c h
        · rw [List.mem_singleton] at h
          rw [h]
          exact ⟨hclnd, hlen, r, hr, hclmem⟩
      · rw [if_neg hlen] at hc
        exact hsound c hc
    · intro p hp w hwnd hwmem hwlen
      rcases List.mem_append.1 hp with hp1 | hp1
      · rcases hcomp p hp1 w hwnd hwmem hwlen with ⟨c, hc, hcx⟩
        by_cases hlen : m ≤ ((dfsAux s (dfsFuel s) acc.1 [r]).filter
            fun x => decide (x ∉ acc.1)).length
        · rw [if_pos hlen]
          exact ⟨c, List.mem_append_left _ hc, hcx⟩
        · rw [if_neg hlen]
          exact ⟨c, hc, hcx⟩
      · simp at hp1
        rw [hp1] at hwmem ⊢
        have hleneq : w.length =
            ((dfsAux s (dfsFuel s) acc.1 [r]).filter
              fun x => decide (x ∉ acc.1)).length :=
          length_eq_of_nodup_mem_iff hwnd hclnd
            (fun x => (hwmem x).trans (hclmem x).symm)
        have hlen : m ≤ ((dfsAux s (dfsFuel s) acc.1 [r]).filter
            fun x => decide (x ∉ acc.1)).length := by omega
        rw [if_pos hlen]
        exact ⟨_, List.mem_append_right _ (by simp), hclmem⟩

/-- The component loop maintains its invariant over any todo list of
nodes. -/
lemma clusters_fold_inv (s : LinkStore) (m : Nat) :
    ∀ (todo P : List String) (acc : List String × List (List String)),
      (∀ x ∈ todo, x ∈ nodesOf s) →
      ClustersInv s m P acc →
      ClustersInv s m (P ++ todo) (todo.foldl (clustersStep s m) acc) := by
  intro todo
  induction todo with
  | nil =>
    intro P acc _ h
    simpa using h
  | cons r todo ih =>
    intro P acc htodo hinv
    rw [List.foldl_cons]
    have hstep := clustersStep_inv s m
      (htodo r (List.mem_cons_self r todo)) hinv
    have := ih (P ++ [r]) _
      (fun x hx => htodo x (List.mem_cons_of_mem r hx)) hstep
    have heq : (P ++ [r]) ++ todo = P ++ r :: todo := by simp
    rw [heq] at this
    exact this

/-- Every cluster `find_clusters` returns is a duplicate-free connected
component of the undirected link graph, of size at least the minimum. -/
lemma find_clusters_sound {s : LinkStore} {m : Nat} {c : List String}
    (hc : c ∈ find_clusters s m) :
    c.Nodup ∧ m ≤ c.length ∧
      ∃ r, r ∈ nodesOf s ∧ ∀ x, x ∈ c ↔ reach s r x := by
  unfold find_clusters at hc
  rw [mem_sortBy] at hc
  have hinv := clusters_fold_inv s m (nodesOf s) [] ([], [])
    (fun x hx => hx)
    ⟨by simp, by simp, by simp, by simp⟩
  exact hinv.2.2.1 c hc

/-- Every connected component of size at least the minimum is returned
by `find_clusters` (as a set of entries). -/
lemma find_clusters_complete {s : LinkStore} {m : Nat} {r : String}
    (hr : r ∈ nodesOf s) {w : List String} (hwnd : w.Nodup)
    (hwmem : ∀ x, x ∈ w ↔ reach s r x) (hwlen : m ≤ w.length) :
    ∃ c ∈ find_clusters s m, ∀ x, x ∈ c ↔ reach s r x := by
  have hinv := clusters_fold_inv s m (nodesOf s) [] ([], [])
    (fun x hx => hx)
    ⟨by simp, by simp, by simp, by simp⟩
  rcases hinv.2.2.2 r (by simpa using hr) w hwnd hwmem hwlen with
    ⟨c, hc, hcx⟩
  refine ⟨c, ?_, hcx⟩
  unfold find_clusters
  rw [mem_sortBy]
  exact hc

/-- Reversing link directions does not change undirected adjacency. -/
lemma adjB_reverseWhere (s : LinkStore) (f : EntryLink → Bool)
    (a b : String) : adjB (reverseWhere s f) a b = adjB s a b := by
  unfold adjB reverseWhere
  rw [List.any_map]
  congr 1
  funext l0
  by_cases h : f l0 = true
  · simp only [Function.comp_apply, if_pos h]
    apply decide_eq_decide.2
    unfold reverseLink
    simp only []
    tauto
  · simp only [Function.comp_apply, if_neg h]

/-- Reversing link directions does not change the node set. -/
lemma nodesOf_reverseWhere_mem (s : LinkStore) (f : EntryLink → Bool)
    (x : String) : x ∈ nodesOf (reverseWhere s f) ↔ x ∈ nodesOf s := by
  rw [nodesOf_mem, nodesOf_mem]
  constructor
  · rintro ⟨l, hl, hx⟩
    rcases List.mem_map.1 hl with ⟨l0, hl0, rfl⟩
    refine ⟨l0, hl0, ?_⟩
    by_cases h : f l0 = true
    · rw [if_pos h] at hx
      unfold reverseLink at hx
      simp only [] at hx
      tauto
    · rw [if_neg h] at hx
      exact hx
  · rintro ⟨l, hl, hx⟩
    refine ⟨if f l then reverseLink l else l, List.mem_map.2 ⟨l, hl, rfl⟩, ?_⟩
    by_cases h : f l = true
    · rw [if_pos h]
      unfold reverseLink
      simp only []
      tauto
    · rw [if_neg h]
      exact hx

/-- Reversing link directions does not change undirected
reachability. -/
lemma reach_reverseWhere (s : LinkStore) (f : EntryLink → Bool)
    {a b : String} : reach (reverseWhere s f) a b ↔ reach s a b := by
  constructor
  · intro h
    refine Relation.ReflTransGen.mono ?_ h
    intro x y hxy
    unfold adjRel at hxy ⊢
    rw [adjB_reverseWhere] at hxy
    exact hxy
  · intro h
    refine Relation.ReflTransGen.mono ?_ h
    intro x y hxy
    unfold adjRel at hxy ⊢
    rw [adjB_reverseWhere]
    exact hxy

/-! ## Claim theorems C6 -/

/-- Claim C6, counterexample: with only the edge A→B and the default
minimum cluster size of 3, the component of A and B is dropped, so
`find_clusters` does not place A and B in any common cluster. -/
theorem claim_C6_cex :
    adjB sAB "A" "B" = true ∧
    ¬ ∃ c ∈ find_clusters sAB 3, ("A" ∈ c ∧ "B" ∈ c) := by
  with_unfolding_all decide

/-- Claim C6 as amended: an edge in either direction means
`find_clusters` never separates its endpoints — every returned cluster
containing one contains the other (they appear together exactly when
their component passes the size threshold) — and the returned clusters,
as sets of entry ids, are unchanged when the direction of any
subset of the edges is reversed. -/
theorem claim_C6_clusterSymmetry :
    ∀ (s : LinkStore) (m : Nat),
      (∀ a b : String, adjRel s a b →
        ∀ c ∈ find_clusters s m, (a ∈ c ↔ b ∈ c)) ∧
      (∀ f : EntryLink → Bool,
        clustersSetEq (find_clusters (reverseWhere s f) m)
          (find_clusters s m)) := by
  intro s m
  constructor
  · intro a b hab c hc
    rcases find_clusters_sound hc with ⟨_, _, r, _, hmemc⟩
    rw [hmemc a, hmemc b]
    constructor
    · intro h
      exact h.tail hab
    · intro h
      exact h.tail (adjRel_symm hab)
  · intro f
    constructor
    · intro c hc
      rcases find_clusters_sound hc with ⟨hnd, hlen, r, hr, hmemc⟩
      have hr2 : r ∈ nodesOf s := (nodesOf_reverseWhere_mem s f r).1 hr
      have hmemc2 : ∀ x, x ∈ c ↔ reach s r x :=
        fun x => (hmemc x).trans (reach_reverseWhere s f)
      rcases find_clusters_complete hr2 hnd hmemc2 hlen with ⟨c2, hc2, hcx⟩
      exact ⟨c2, hc2, fun x => (hmemc2 x).trans (hcx x).symm⟩
    · intro c hc
      rcases find_clusters_sound hc with ⟨hnd, hlen, r, hr, hmemc⟩
      have hr2 : r ∈ nodesOf (reverseWhere s f) :=
        (nodesOf_reverseWhere_mem s f r).2 hr
      have hmemc2 : ∀ x, x ∈ c ↔ reach (reverseWhere s f) r x :=
        fun x => (hmemc x).trans (reach_reverseWhere s f).symm
      rcases find_clusters_complete hr2 hnd hmemc2 hlen with ⟨c2, hc2, hcx⟩
      exact ⟨c2, hc2, fun x => (hmemc2 x).trans (hcx x).symm⟩

/-- Witness for C6: on the store A→B, B→C with minimum size 1, the edge
A→B means the cluster `["A", "B", "C"]` contains A exactly when it
contains B. -/
theorem claim_C6_witness :
    ("A" ∈ (["A", "B", "C"] : List String)) ↔
      ("B" ∈ (["A", "B", "C"] : List String)) :=
  (claim_C6_clusterSymmetry sABC 1).1 "A" "B"
    (by unfold adjRel; with_unfolding_all decide) ["A", "B", "C"]
    (by with_unfolding_all decide)

end TemporalKB
